import Mathlib

/-!
Verification development for the procedural-placement library
(GPU compute pipeline for Poisson-disk style object placement).

The C++ sources available are `src/include/placement/generation_kernel.hpp`
(declarations and argument documentation of the candidate-generation kernel)
and `src/test/tests.cpp` (the test suite).  The kernel bodies, the
`PlacementPipeline` orchestration and the CPU-side
`DiskDistributionGenerator` are described by the specification document;
definitions below that embed those missing parts carry a doc comment
starting with "Modelled from the spec:".

Real numbers of the target (GLSL `float`) are embedded as rationals `ℚ`;
all distance constraints are stated on squared distances, which is exact
over `ℚ`.
-/

/-- A 2D vector over the rationals, standing for GLSL `vec2`. -/
structure Vec2 where
  x : ℚ
  y : ℚ
  deriving DecidableEq, Repr

/-- Squared euclidean distance of two 2D points. -/
def dist2 (p q : Vec2) : ℚ := (p.x - q.x) ^ 2 + (p.y - q.y) ^ 2

/-- The sentinel `u32::MAX` used throughout the GPU buffers for
"invalid / rejected". -/
def u32MAX : ℕ := 4294967295

/-- Output record of the pipeline, standing for the std430 struct
`{ vec3 position; uint class_index; }`.  `posX`/`posZ` are the horizontal
world coordinates, `posY` the sampled height. -/
structure Candidate where
  posX : ℚ
  posY : ℚ
  posZ : ℚ
  classIndex : ℕ
  deriving DecidableEq, Repr

/-- Buffer memory the pipeline allocates is modelled as being filled with
this record; its class index is the invalid sentinel. -/
def defaultCandidate : Candidate := ⟨0, 0, 0, u32MAX⟩

/-- The nine integer shifts `{-1,0,1}²` used when measuring distance on the
torus. -/
def shifts9 : List (ℤ × ℤ) :=
  [(-1, -1), (-1, 0), (-1, 1), (0, -1), (0, 0), (0, 1), (1, -1), (1, 0), (1, 1)]

/-- Translate a point by an integer multiple of the tile bounds. -/
def shiftBy (q : Vec2) (d : ℤ × ℤ) (B : Vec2) : Vec2 :=
  ⟨q.x + d.1 * B.x, q.y + d.2 * B.y⟩

/-- The toroidal separation contract of a placement stencil (spec §3,
"Stencil respects footprint under toroidal wrap"): any two stencil entries,
under any shift from `{-1,0,1}²` and excluding the trivial case, are at
squared distance at least `f²`.  Entries are addressed by index so that two
distinct slots holding equal positions are also ruled out. -/
def toroidalOk (stencil : List Vec2) (B : Vec2) (f : ℚ) : Prop :=
  ∀ i ∈ List.range stencil.length, ∀ j ∈ List.range stencil.length,
    ∀ d ∈ shifts9, (i ≠ j ∨ d ≠ (0, 0)) →
      f ^ 2 ≤ dist2 (stencil.getD i ⟨0, 0⟩) (shiftBy (stencil.getD j ⟨0, 0⟩) d B)

/-- Every stencil position lies inside the tile `[0, B.x) × [0, B.y)`
(spec §3, "Each position lies in `[0, tile_bounds)`"). -/
def stencilInRange (stencil : List Vec2) (B : Vec2) : Prop :=
  ∀ p ∈ stencil, 0 ≤ p.x ∧ p.x < B.x ∧ 0 ≤ p.y ∧ p.y < B.y

/-! ## DiskDistributionGenerator (spec §4.1)

The CPU-side dart-throwing sampler.  Its source file
(`disk_distribution_generator.hpp`) is not part of the available sources
(the test suite includes it from outside `src/`), so the algorithm is
modelled from the specification: candidates are drawn inside the tile,
located in an acceleration grid whose cell diagonal equals the footprint,
and rejected iff some point of the 3×3 toroidal cell neighborhood lies at
minimal-toroidal-image distance < footprint.

The grid cell side is `footprint / √2`, which is irrational; the model
therefore takes the cell side `s` as an explicit parameter (the tile bounds
are `(m·s, n·s)` for grid size `(m, n)`), and statements that depend on the
relation between `s` and the footprint carry it as a hypothesis.

The PRNG is abstracted as the stream of drawn candidates: any sequence of
points inside the tile is a possible random sequence, so reachable
generator states are exactly the results of folding the acceptance step
over such a stream. -/

/-- Acceleration grid cell index of a coordinate, for cell side `s`. -/
def cellOf (s x : ℚ) : ℤ := ⌊x / s⌋

/-- One axis of the 3×3 neighborhood relation on cell indices in `[0, m)`,
with toroidal wrap into the opposite edge: same cell, adjacent cell, or
wrap-around between cell `0` and cell `m-1`. -/
def nbhd1 (m : ℕ) (c d : ℤ) : Bool :=
  d = c || d = c + 1 || d = c - 1 || (c = 0 && d = (m : ℤ) - 1) || (c = (m : ℤ) - 1 && d = 0)

/-- Two points fall in toroidally neighboring grid cells (both axes within
the 3×3 neighborhood). -/
def neighborCells (m n : ℕ) (s : ℚ) (p q : Vec2) : Bool :=
  nbhd1 m (cellOf s p.x) (cellOf s q.x) && nbhd1 n (cellOf s p.y) (cellOf s q.y)

/-- Modelled from the spec: the rejection test of
`DiskDistributionGenerator::generate` (§4.1, step 2).  A candidate `c`
collides iff some already placed point in the 3×3 toroidal cell
neighborhood of `c` is at distance < footprint under some toroidal image
(strict less-than: points exactly at the footprint are permitted). -/
def collides (f s : ℚ) (m n : ℕ) (st : List Vec2) (c : Vec2) : Bool :=
  st.any fun p =>
    neighborCells m n s p c &&
      shifts9.any fun d => decide (dist2 p (shiftBy c d ⟨m * s, n * s⟩) < f ^ 2)

/-- Modelled from the spec: one accepted-or-rejected draw of
`DiskDistributionGenerator::generate` (§4.1, steps 1-3). -/
def diskStep (f s : ℚ) (m n : ℕ) (st : List Vec2) (c : Vec2) : List Vec2 :=
  if collides f s m n st c then st else c :: st

/-- Modelled from the spec: the generator state (its accumulated positions)
after a sequence of draws given by `stream`, starting from the empty
distribution. -/
def diskRun (f s : ℚ) (m n : ℕ) (stream : List Vec2) : List Vec2 :=
  stream.foldl (diskStep f s m n) []

/-- A point lies in the half-open tile `[0, m·s) × [0, n·s)`. -/
def inTile (s : ℚ) (m n : ℕ) (p : Vec2) : Prop :=
  0 ≤ p.x ∧ p.x < m * s ∧ 0 ≤ p.y ∧ p.y < n * s

instance (s : ℚ) (m n : ℕ) (p : Vec2) : Decidable (inTile s m n p) := by
  unfold inTile; infer_instance

/-- The property claimed for produced distributions: every point in the
tile, and every pair (distinct point or nonzero shift) separated by at
least the footprint under every shift in `{-1,0,1}²`. -/
def diskSeparationProp (f s : ℚ) (m n : ℕ) (positions : List Vec2) : Prop :=
  (∀ p ∈ positions, inTile s m n p) ∧
    ∀ p ∈ positions, ∀ q ∈ positions, ∀ d ∈ shifts9, (p ≠ q ∨ d ≠ (0, 0)) →
      f ^ 2 ≤ dist2 p (shiftBy q d ⟨m * s, n * s⟩)

instance (f s : ℚ) (m n : ℕ) (positions : List Vec2) :
    Decidable (diskSeparationProp f s m n positions) := by
  unfold diskSeparationProp; infer_instance

/-- The invariant maintained by the dart-throwing loop: all points in the
tile, and all pairs that the 3×3 neighborhood scan can see are separated by
the footprint under every toroidal image. -/
def diskInv (f s : ℚ) (m n : ℕ) (st : List Vec2) : Prop :=
  (∀ p ∈ st, inTile s m n p) ∧
    ∀ p ∈ st, ∀ q ∈ st, p ≠ q → neighborCells m n s p q = true →
      ∀ d ∈ shifts9, f ^ 2 ≤ dist2 p (shiftBy q d ⟨m * s, n * s⟩)

/-! ## IndexationKernel (spec §4.4)

The compaction-index computation.  The kernel's GLSL source is not under
the available sources, so it is modelled from the specification: candidates
are processed in workgroups of 64; each workgroup computes a local prefix
sum over its valid mask, obtains a base offset by atomically adding its
local total to a global counter, and writes `base + local_prefix` for valid
candidates and `u32::MAX` for invalid ones.

The order in which workgroups reach the atomic add is scheduler
nondeterminism; it is modelled as an explicit parameter `order`, a
permutation of the workgroup ids.  The validity predicate (in the pipeline
a class filter on `class_index`) is likewise a parameter. -/

/-- Split a list into chunks of `k` (fuelled structural recursion). -/
def chunksGo (k : ℕ) : ℕ → List α → List (List α)
  | 0, _ => []
  | _ + 1, [] => []
  | fuel + 1, a :: as => (a :: as).take k :: chunksGo k fuel ((a :: as).drop k)

/-- The workgroups of a dispatch: the candidate array cut into chunks of
64, the linear workgroup size of the indexation and copy kernels. -/
def chunks64 (l : List α) : List (List α) := chunksGo 64 l.length l

/-- Modelled from the spec: the per-workgroup write pattern of
IndexationKernel.  Valid candidates receive `base + local_prefix` (the
local prefix sum of the valid mask), invalid ones the sentinel. -/
def assignGroup (valid : α → Bool) : ℕ → List α → List ℕ
  | _, [] => []
  | b, a :: as =>
    if valid a then b :: assignGroup valid (b + 1) as
    else u32MAX :: assignGroup valid b as

/-- Number of valid candidates in workgroup `g`. -/
def groupTotal (valid : α → Bool) (groups : List (List α)) (g : ℕ) : ℕ :=
  (groups.getD g []).countP valid

/-- Modelled from the spec: the base offset a workgroup obtains from the
atomic counter, namely the sum of the local totals of the workgroups that
completed their atomic add before it in the completion order. -/
def baseOf (valid : α → Bool) (groups : List (List α)) (order : List ℕ) (g : ℕ) : ℕ :=
  ((order.takeWhile (fun x => x != g)).map (groupTotal valid groups)).sum

/-- Modelled from the spec: the index buffer written by a dispatch of
IndexationKernel over `cands`, for completion order `order`. -/
def indexation (valid : α → Bool) (order : List ℕ) (cands : List α) : List ℕ :=
  ((List.range (chunks64 cands).length).map
    (fun g => assignGroup valid (baseOf valid (chunks64 cands) order g)
      ((chunks64 cands).getD g []))).flatten

/-- Modelled from the spec: the final value of the global atomic counter,
the sum of all local totals. -/
def indexationCount (valid : α → Bool) (cands : List α) : ℕ :=
  ((chunks64 cands).map (fun grp => grp.countP valid)).sum

/-! ## CopyKernel (spec §4.5)

The scatter pass.  The kernel's GLSL source is not under the available
sources; modelled from the specification: each invocation `gid` copies
`candidates[gid]` to `output[indices[gid]]` iff `indices[gid] ≠ u32::MAX`.
The dispatch is order-independent because assigned indices are unique, so
it is modelled as a left fold of the per-invocation writes over the
(candidate, index) pairs. -/

/-- Modelled from the spec: the write of a single CopyKernel invocation. -/
def scatterStep (o : List α) (p : α × ℕ) : List α :=
  if p.2 ≠ u32MAX then o.set p.2 p.1 else o

/-- Modelled from the spec: the output buffer contents after a CopyKernel
dispatch over `cands` with index buffer `indices`, starting from buffer
contents `out`. -/
def scatterWrites (cands : List α) (indices : List ℕ) (out : List α) : List α :=
  (cands.zip indices).foldl scatterStep out

/-- The pairs a CopyKernel dispatch actually writes: candidates whose
assigned index is not the invalid sentinel. -/
def validPairs (cands : List α) (indices : List ℕ) : List (α × ℕ) :=
  (cands.zip indices).filter (fun p => p.2 != u32MAX)

/-- The contents the claim expects in `output[0..count)`: at slot `k`, the
unique valid candidate whose assigned index is `k` (the valid subsequence
arranged in index order). -/
def gatherSpec (cands : List α) (indices : List ℕ) (count : ℕ) (dflt : α) : List α :=
  (List.range count).map fun k =>
    (Option.map Prod.fst ((validPairs cands indices).find? (fun p => p.2 == k))).getD dflt

/-- Modelled from the spec: one indexation + copy round of the pipeline
(§4.6, steps 6-7): IndexationKernel over the candidates with validity
predicate `valid` and completion order `order`, then a CopyKernel scatter
into a freshly allocated output range of `count` entries whose previous
contents are `dflt`. -/
def compact (valid : α → Bool) (order : List ℕ) (dflt : α) (cands : List α) : List α :=
  (scatterWrites cands (indexation valid order cands)
    (List.replicate (indexationCount valid cands) dflt)).take
    (indexationCount valid cands)

/-! ## GenerationKernel (spec §4.2) and PlacementPipeline (spec §4.6)

`WorldData` and `LayerData` mirror the host-side data model (spec §3);
textures are embedded as their sampling functions, which belong to the
external GPU interface. -/

structure WorldData where
  scaleX : ℚ
  scaleY : ℚ
  scaleZ : ℚ
  heightmap : Vec2 → ℚ

structure DensityMap where
  sample : Vec2 → ℚ
  scale : ℚ

structure LayerData where
  footprint : ℚ
  densitymaps : List DensityMap

/-- The pipeline state: the placement stencil computed at construction by
DiskDistributionGenerator, and its tile bounds. -/
structure Pipeline where
  stencil : List Vec2
  stencilBounds : Vec2

/-- Modelled from the spec: one GenerationKernel invocation (§4.2):
`xz = lower_bound + workgroup · stencil_bounds + stencil[l]`,
`uv = xz / world_scale.xz`, height sampled from the heightmap and scaled
by `world_scale.y`; the emitted candidate starts invalid. -/
def genCandidate (w : WorldData) (lb B : Vec2) (sp : Vec2) (wx wy : ℕ) :
    Candidate × Vec2 :=
  let x := lb.x + wx * B.x + sp.x
  let z := lb.y + wy * B.y + sp.y
  let uv : Vec2 := ⟨x / w.scaleX, z / w.scaleZ⟩
  (⟨x, w.heightmap uv * w.scaleY, z, u32MAX⟩, uv)

/-- Modelled from the spec: the candidate and world-uv buffers written by
one GenerationKernel dispatch with `nwx × nwy` workgroups over the stencil
slots. -/
def generationDispatch (w : WorldData) (lb B : Vec2) (stencil : List Vec2)
    (nwx nwy : ℕ) : List (Candidate × Vec2) :=
  (List.range nwx).flatMap fun wx =>
    (List.range nwy).flatMap fun wy =>
      (List.range stencil.length).map fun l =>
        genCandidate w lb B (stencil.getD l ⟨0, 0⟩) wx wy

/-- Modelled from the spec: `GenerationKernel::m_calculateNumWorkGroups`
(its body is not under the available sources):
`num_work_groups = ceil((upper_bound - lower_bound) / stencil_bounds)`,
clamped to zero on any axis whose extent is non-positive (`Int.toNat`
clamps the non-positive ceilings). -/
def calculateNumWorkGroups (sb lb ub : Vec2) : ℕ × ℕ :=
  (⌈(ub.x - lb.x) / sb.x⌉.toNat, ⌈(ub.y - lb.y) / sb.y⌉.toNat)

/-- From `generation_kernel.hpp`, `GenerationKernel::calculateCandidateCount`:
`num_invocations = m_num_work_groups * s_work_group_size` with
`s_work_group_size = {8, 8}`, and the count is
`num_invocations.x * num_invocations.y`. -/
def calculateCandidateCount (num_work_groups : ℕ × ℕ) : ℕ :=
  (num_work_groups.1 * 8) * (num_work_groups.2 * 8)

/-- Modelled from the spec: the per-candidate CDF-style class selection of
the EvaluationKernel dispatches (§4.3), folded over the classes in
dispatch order.  `acc` is the running cumulative density threshold stored
in the densities buffer, `r` the position-derived hash value; a candidate
is assigned to the first class whose interval `[acc, acc')` contains `r`,
and stays invalid when `r` falls outside every interval. -/
def evalClassesGo (r : ℚ) (uv : Vec2) : ℕ → ℚ → List DensityMap → ℕ
  | _, _, [] => u32MAX
  | i, acc, d :: rest =>
    if acc ≤ r ∧ r < acc + d.sample uv * d.scale then i
    else evalClassesGo r uv (i + 1) (acc + d.sample uv * d.scale) rest

/-- Candidate horizontal position inside the half-open placement region
(lower bound inclusive, upper bound exclusive). -/
def inRegion (lb ub p : Vec2) : Prop :=
  lb.x ≤ p.x ∧ p.x < ub.x ∧ lb.y ≤ p.y ∧ p.y < ub.y

instance (lb ub p : Vec2) : Decidable (inRegion lb ub p) := by
  unfold inRegion
  infer_instance

/-- Modelled from the spec: the combined effect of the per-class
EvaluationKernel dispatches on one candidate (§4.3): a candidate outside
`[lower_bound, upper_bound)` is left invalid; otherwise the position hash
of its world-uv selects its class. -/
def evaluateCandidate (hash : Vec2 → ℚ) (lb ub : Vec2) (dmaps : List DensityMap)
    (cuv : Candidate × Vec2) : Candidate :=
  if inRegion lb ub ⟨cuv.1.posX, cuv.1.posZ⟩ then
    { cuv.1 with classIndex := evalClassesGo (hash cuv.2) cuv.2 0 0 dmaps }
  else cuv.1

/-- The Result view over the per-class output ranges (spec §4.7). -/
structure PlacementResult where
  numClasses : ℕ
  classElements : List (List Candidate)

/-- Modelled from the spec: `Result::copyAllToHost`, all elements ordered
by class. -/
def PlacementResult.copyAllToHost (r : PlacementResult) : List Candidate :=
  r.classElements.flatten

/-- Modelled from the spec: `Result::copyClassToHost`. -/
def PlacementResult.copyClassToHost (r : PlacementResult) (i : ℕ) : List Candidate :=
  r.classElements.getD i []

/-- Modelled from the spec: `Result::getClassElementCount`. -/
def PlacementResult.getClassElementCount (r : PlacementResult) (i : ℕ) : ℕ :=
  (r.classElements.getD i []).length

/-- Modelled from the spec: `Result::getElementArrayLength`, the sum of
the per-class counts. -/
def PlacementResult.getElementArrayLength (r : PlacementResult) : ℕ :=
  (r.classElements.map List.length).sum

/-- Modelled from the spec: the evaluated candidate array of one
`computePlacement` call: a GenerationKernel dispatch followed by the
per-class EvaluationKernel dispatches. -/
def evaluatedOf (hash : Vec2 → ℚ) (pipe : Pipeline) (w : WorldData) (layer : LayerData)
    (lb ub : Vec2) : List Candidate :=
  (generationDispatch w lb pipe.stencilBounds pipe.stencil
      (calculateNumWorkGroups pipe.stencilBounds lb ub).1
      (calculateNumWorkGroups pipe.stencilBounds lb ub).2).map
    (evaluateCandidate hash lb ub layer.densitymaps)

/-- The class filter used by the per-class indexation + copy rounds: a
candidate is valid for round `i` iff it was assigned class `i`. -/
def classValid (i : ℕ) (c : Candidate) : Bool := c.classIndex == i

/-- Modelled from the spec: `PlacementPipeline::computePlacement` (§4.6).
A region with non-positive extent on either axis early-returns an empty
Result (spec §7, a non-error); otherwise candidates are generated and
evaluated, and each class is compacted by an indexation + copy round into
its contiguous output range.  `sched i` is the workgroup completion order
of the round for class `i` (scheduler nondeterminism made explicit), and
`hash` is the deterministic position hash of the EvaluationKernel. -/
def computePlacement (hash : Vec2 → ℚ) (pipe : Pipeline) (w : WorldData)
    (layer : LayerData) (lb ub : Vec2) (sched : ℕ → List ℕ) : PlacementResult :=
  if ub.x ≤ lb.x ∨ ub.y ≤ lb.y then
    ⟨layer.densitymaps.length, List.replicate layer.densitymaps.length []⟩
  else
    ⟨layer.densitymaps.length,
      (List.range layer.densitymaps.length).map fun i =>
        compact (classValid i) (sched i) defaultCandidate
          (evaluatedOf hash pipe w layer lb ub)⟩

theorem sq_le_add_sq_of_le_neg {f X Y : ℚ} (hf : 0 ≤ f) (h : f ≤ -X ∨ f ≤ X) :
    f ^ 2 ≤ X ^ 2 + Y ^ 2 := by
  rcases h with h | h
  · nlinarith [sq_nonneg Y, sq_nonneg (X + f)]
  · nlinarith [sq_nonneg Y, sq_nonneg (X - f)]

theorem getD_mem_of_lt {l : List Vec2} {i : ℕ} (h : i < l.length) :
    l.getD i ⟨0, 0⟩ ∈ l := by
  rw [List.getD_eq_getElem?_getD, List.getElem?_eq_getElem h]
  exact List.getElem_mem h

/-- Candidate positions generated from a toroidally valid stencil, tiled with
period `B`, keep the footprint separation: positions indexed by distinct
`(workgroup, stencil slot)` pairs are at squared distance at least `f²`.
This is the essential correctness argument of the stencil design
(spec §4.2, "Why a stencil and not rejection sampling"). -/
theorem lattice_sep (stencil : List Vec2) (B : Vec2) (f : ℚ)
    (htor : toroidalOk stencil B f) (hrange : stencilInRange stencil B)
    (hfx : f ≤ B.x) (hfy : f ≤ B.y) (hf : 0 < f) (lb : Vec2)
    (wx₁ wy₁ l₁ wx₂ wy₂ l₂ : ℕ)
    (h₁ : l₁ < stencil.length) (h₂ : l₂ < stencil.length)
    (hne : (wx₁, wy₁, l₁) ≠ (wx₂, wy₂, l₂)) :
    f ^ 2 ≤ dist2
      ⟨lb.x + wx₁ * B.x + (stencil.getD l₁ ⟨0, 0⟩).x,
       lb.y + wy₁ * B.y + (stencil.getD l₁ ⟨0, 0⟩).y⟩
      ⟨lb.x + wx₂ * B.x + (stencil.getD l₂ ⟨0, 0⟩).x,
       lb.y + wy₂ * B.y + (stencil.getD l₂ ⟨0, 0⟩).y⟩ := by
  set s₁ := stencil.getD l₁ ⟨0, 0⟩ with hs₁
  set s₂ := stencil.getD l₂ ⟨0, 0⟩ with hs₂
  obtain ⟨hr₁x, hr₁x', hr₁y, hr₁y'⟩ := hrange s₁ (getD_mem_of_lt h₁)
  obtain ⟨hr₂x, hr₂x', hr₂y, hr₂y'⟩ := hrange s₂ (getD_mem_of_lt h₂)
  have hBx : 0 < B.x := lt_of_lt_of_le hf hfx
  have hBy : 0 < B.y := lt_of_lt_of_le hf hfy
  set dx : ℤ := (wx₂ : ℤ) - (wx₁ : ℤ) with hdx
  set dy : ℤ := (wy₂ : ℤ) - (wy₁ : ℤ) with hdy
  have hdist : dist2
      ⟨lb.x + wx₁ * B.x + s₁.x, lb.y + wy₁ * B.y + s₁.y⟩
      ⟨lb.x + wx₂ * B.x + s₂.x, lb.y + wy₂ * B.y + s₂.y⟩
      = (s₁.x - (s₂.x + (dx : ℚ) * B.x)) ^ 2 + (s₁.y - (s₂.y + (dy : ℚ) * B.y)) ^ 2 := by
    simp only [dist2, hdx, hdy]
    push_cast
    ring
  rw [hdist]
  rcases le_or_lt 2 dx with hbig | hdx1
  · have h2 : (2 : ℚ) ≤ (dx : ℚ) := by exact_mod_cast hbig
    exact sq_le_add_sq_of_le_neg (le_of_lt hf) (Or.inl (by nlinarith))
  rcases le_or_lt dx (-2) with hbig | hdx2
  · have h2 : (dx : ℚ) ≤ -2 := by exact_mod_cast hbig
    exact sq_le_add_sq_of_le_neg (le_of_lt hf) (Or.inr (by nlinarith))
  rcases le_or_lt 2 dy with hbig | hdy1
  · have h2 : (2 : ℚ) ≤ (dy : ℚ) := by exact_mod_cast hbig
    rw [add_comm]
    exact sq_le_add_sq_of_le_neg (le_of_lt hf) (Or.inl (by nlinarith))
  rcases le_or_lt dy (-2) with hbig | hdy2
  · have h2 : (dy : ℚ) ≤ -2 := by exact_mod_cast hbig
    rw [add_comm]
    exact sq_le_add_sq_of_le_neg (le_of_lt hf) (Or.inr (by nlinarith))
  · -- both shift components lie in {-1,0,1}: the toroidal contract applies
    have hx : -1 ≤ dx ∧ dx ≤ 1 := by omega
    have hy : -1 ≤ dy ∧ dy ≤ 1 := by omega
    have hmem : (dx, dy) ∈ shifts9 := by
      simp only [shifts9, List.mem_cons, List.mem_singleton, Prod.mk.injEq]
      omega
    have hcase : l₁ ≠ l₂ ∨ (dx, dy) ≠ ((0 : ℤ), (0 : ℤ)) := by
      by_contra hcon
      push_neg at hcon
      obtain ⟨hl, hd⟩ := hcon
      simp only [Prod.mk.injEq] at hd
      obtain ⟨hdx0, hdy0⟩ := hd
      apply hne
      have : wx₁ = wx₂ := by omega
      have : wy₁ = wy₂ := by omega
      simp_all
    have := htor l₁ (List.mem_range.mpr h₁) l₂ (List.mem_range.mpr h₂) (dx, dy) hmem hcase
    simpa [dist2, shiftBy, hs₁, hs₂] using this

theorem nbhd1_symm {m : ℕ} {c d : ℤ} (hm : 0 < m) (hc : 0 ≤ c ∧ c < m)
    (hd : 0 ≤ d ∧ d < m) : nbhd1 m c d = nbhd1 m d c := by
  have h : (nbhd1 m c d = true) ↔ (nbhd1 m d c = true) := by
    simp only [nbhd1, Bool.or_eq_true, Bool.and_eq_true, decide_eq_true_eq]
    omega
  cases hcd : nbhd1 m c d <;> cases hdc : nbhd1 m d c <;> simp_all

theorem cellOf_range {s x : ℚ} {m : ℕ} (hs : 0 < s) (h0 : 0 ≤ x) (h1 : x < m * s) :
    0 ≤ cellOf s x ∧ cellOf s x < m := by
  constructor
  · exact Int.floor_nonneg.mpr (div_nonneg h0 (le_of_lt hs))
  · rw [cellOf, Int.floor_lt]
    rw [div_lt_iff₀ hs]
    push_cast
    linarith

theorem neighborCells_symm {m n : ℕ} {s : ℚ} {p q : Vec2} (hm : 0 < m) (hn : 0 < n)
    (hs : 0 < s) (hp : inTile s m n p) (hq : inTile s m n q) :
    neighborCells m n s p q = neighborCells m n s q p := by
  obtain ⟨hp1, hp2, hp3, hp4⟩ := hp
  obtain ⟨hq1, hq2, hq3, hq4⟩ := hq
  unfold neighborCells
  rw [nbhd1_symm hm (cellOf_range hs hp1 hp2) (cellOf_range hs hq1 hq2),
    nbhd1_symm hn (cellOf_range hs hp3 hp4) (cellOf_range hs hq3 hq4)]

theorem shifts9_neg {d : ℤ × ℤ} (h : d ∈ shifts9) : (-d.1, -d.2) ∈ shifts9 := by
  fin_cases h <;> decide

theorem dist2_shift_symm (p q : Vec2) (d : ℤ × ℤ) (B : Vec2) :
    dist2 p (shiftBy q d B) = dist2 q (shiftBy p (-d.1, -d.2) B) := by
  simp only [dist2, shiftBy]
  push_cast
  ring

theorem diskStep_inv {f s : ℚ} {m n : ℕ} {st : List Vec2} {c : Vec2}
    (hm : 0 < m) (hn : 0 < n) (hs : 0 < s)
    (hinv : diskInv f s m n st) (hc : inTile s m n c) :
    diskInv f s m n (diskStep f s m n st c) := by
  obtain ⟨hrange, hsep⟩ := hinv
  unfold diskStep
  by_cases hcol : collides f s m n st c = true
  · rw [if_pos hcol]
    exact ⟨hrange, hsep⟩
  · rw [if_neg hcol]
    have hnocol : ∀ p ∈ st, neighborCells m n s p c = true →
        ∀ d ∈ shifts9, f ^ 2 ≤ dist2 p (shiftBy c d ⟨m * s, n * s⟩) := by
      intro p hp hnb d hd
      by_contra hlt
      push_neg at hlt
      apply hcol
      rw [collides, List.any_eq_true]
      refine ⟨p, hp, ?_⟩
      rw [Bool.and_eq_true]
      refine ⟨hnb, ?_⟩
      rw [List.any_eq_true]
      exact ⟨d, hd, by simpa using hlt⟩
    constructor
    · intro p hp
      rcases List.mem_cons.mp hp with h | h
      · rwa [h]
      · exact hrange p h
    · intro p hp q hq hpq hnb d hd
      rcases List.mem_cons.mp hp with hpc | hpst <;>
        rcases List.mem_cons.mp hq with hqc | hqst
      · exact absurd (hpc.trans hqc.symm) hpq
      · -- p is the new point, q was already placed
        have hnb' : neighborCells m n s q c = true := by
          rw [← neighborCells_symm hm hn hs hc (hrange q hqst), ← hpc]
          exact hnb
        rw [hpc, dist2_shift_symm c q d ⟨m * s, n * s⟩]
        exact hnocol q hqst hnb' (-d.1, -d.2) (shifts9_neg hd)
      · -- q is the new point, p was already placed
        rw [hqc]
        rw [hqc] at hnb
        exact hnocol p hpst hnb d hd
      · exact hsep p hpst q hqst hpq hnb d hd

theorem diskRun_foldl_inv {f s : ℚ} {m n : ℕ} (hm : 0 < m) (hn : 0 < n) (hs : 0 < s) :
    ∀ (stream : List Vec2) (st : List Vec2), diskInv f s m n st →
      (∀ c ∈ stream, inTile s m n c) → diskInv f s m n (stream.foldl (diskStep f s m n) st)
  | [], st, hinv, _ => hinv
  | c :: cs, st, hinv, hstr => by
    rw [List.foldl_cons]
    exact diskRun_foldl_inv hm hn hs cs _
      (diskStep_inv hm hn hs hinv (hstr c (List.mem_cons_self c cs)))
      (fun x hx => hstr x (List.mem_cons_of_mem c hx))

theorem diskRun_inv {f s : ℚ} {m n : ℕ} {stream : List Vec2}
    (hm : 0 < m) (hn : 0 < n) (hs : 0 < s)
    (hstream : ∀ c ∈ stream, inTile s m n c) :
    diskInv f s m n (diskRun f s m n stream) :=
  diskRun_foldl_inv hm hn hs stream []
    ⟨fun p hp => absurd hp (List.not_mem_nil p), fun p hp => absurd hp (List.not_mem_nil p)⟩
    hstream

/-- Self-collision under a nonzero toroidal image: a point is separated
from its own images as soon as the tile is at least a footprint wide. -/
theorem self_image_sep {f s : ℚ} {m n : ℕ} (hf : 0 ≤ f)
    (hmx : f ≤ m * s) (hny : f ≤ n * s) (p : Vec2) :
    ∀ d ∈ shifts9, d ≠ (0, 0) → f ^ 2 ≤ dist2 p (shiftBy p d ⟨m * s, n * s⟩) := by
  intro d hd hd0
  have hx : dist2 p (shiftBy p d ⟨m * s, n * s⟩)
      = (d.1 : ℚ) ^ 2 * (m * s) ^ 2 + (d.2 : ℚ) ^ 2 * (n * s) ^ 2 := by
    simp only [dist2, shiftBy]
    ring
  rw [hx]
  fin_cases hd <;> simp_all <;> nlinarith

theorem chunksGo_flatten (k : ℕ) (hk : 0 < k) :
    ∀ (fuel : ℕ) (l : List α), l.length ≤ fuel → (chunksGo k fuel l).flatten = l := by
  intro fuel
  induction fuel with
  | zero =>
    intro l hl
    rw [Nat.le_zero, List.length_eq_zero] at hl
    subst hl
    rfl
  | succ n ih =>
    intro l hl
    match l with
    | [] => rfl
    | a :: as =>
      have hd : ((a :: as).drop k).length ≤ n := by
        rw [List.length_drop]
        simp only [List.length_cons] at hl ⊢
        omega
      rw [chunksGo, List.flatten_cons, ih ((a :: as).drop k) hd, List.take_append_drop]

theorem chunks64_flatten (l : List α) : (chunks64 l).flatten = l :=
  chunksGo_flatten 64 (by omega) l.length l le_rfl

theorem assignGroup_length (valid : α → Bool) :
    ∀ (l : List α) (b : ℕ), (assignGroup valid b l).length = l.length
  | [], _ => rfl
  | a :: as, b => by
    rw [assignGroup]
    by_cases h : valid a = true
    · rw [if_pos h, List.length_cons, List.length_cons, assignGroup_length valid as]
    · rw [if_neg h, List.length_cons, List.length_cons, assignGroup_length valid as]

theorem assignGroup_zip_mem (valid : α → Bool) :
    ∀ (l : List α) (b : ℕ), ∀ p ∈ l.zip (assignGroup valid b l),
      (valid p.1 = false → p.2 = u32MAX) ∧
        (valid p.1 = true → b ≤ p.2 ∧ p.2 < b + l.countP valid)
  | [], _, p, hp => absurd hp (List.not_mem_nil p)
  | a :: as, b, p, hp => by
    rw [assignGroup] at hp
    by_cases h : valid a = true
    · rw [if_pos h, List.zip_cons_cons] at hp
      rcases List.mem_cons.mp hp with hph | hpt
      · subst hph
        refine ⟨fun hc => absurd h (by simp [hc]), fun _ => ⟨le_rfl, ?_⟩⟩
        rw [List.countP_cons, if_pos h]
        omega
      · obtain ⟨h1, h2⟩ := assignGroup_zip_mem valid as (b + 1) p hpt
        refine ⟨h1, fun hv => ?_⟩
        obtain ⟨h3, h4⟩ := h2 hv
        rw [List.countP_cons, if_pos h]
        omega
    · rw [if_neg h, List.zip_cons_cons] at hp
      rcases List.mem_cons.mp hp with hph | hpt
      · subst hph
        exact ⟨fun _ => rfl, fun hv => absurd hv h⟩
      · obtain ⟨h1, h2⟩ := assignGroup_zip_mem valid as b p hpt
        refine ⟨h1, fun hv => ?_⟩
        obtain ⟨h3, h4⟩ := h2 hv
        rw [List.countP_cons, if_neg h]
        omega

theorem assignGroup_zip_filter (valid : α → Bool) :
    ∀ (l : List α) (b : ℕ),
      ((l.zip (assignGroup valid b l)).filter (fun p => valid p.1)).map Prod.snd
        = (List.range (l.countP valid)).map (b + ·)
  | [], _ => rfl
  | a :: as, b => by
    rw [assignGroup]
    by_cases h : valid a = true
    · rw [if_pos h, List.zip_cons_cons, List.filter_cons,
        if_pos (show valid ((a, b) : α × ℕ).1 = true from h)]
      rw [List.map_cons, assignGroup_zip_filter valid as (b + 1)]
      rw [List.countP_cons, if_pos h, List.range_succ_eq_map, List.map_cons, List.map_map]
      have harith : ((b + ·) ∘ Nat.succ) = ((b + 1) + ·) := by
        funext i
        simp only [Function.comp_apply]
        omega
      rw [harith]
      simp
    · rw [if_neg h, List.zip_cons_cons, List.filter_cons,
        if_neg (show ¬ valid ((a, u32MAX) : α × ℕ).1 = true from h)]
      rw [assignGroup_zip_filter valid as b, List.countP_cons, if_neg h, Nat.add_zero]

theorem getD_range_map (l : List α) (dflt : α) :
    (List.range l.length).map (fun i => l.getD i dflt) = l := by
  induction l with
  | nil => rfl
  | cons a as ih =>
    rw [List.length_cons, List.range_succ_eq_map, List.map_cons, List.map_map]
    simp only [List.getD_cons_zero, Function.comp_def, List.getD_cons_succ]
    rw [ih]

theorem flatten_zip_assign (valid : α → Bool) (groups : List (List α)) (b : ℕ → ℕ) :
    ∀ gs : List ℕ,
      ((gs.map (fun g => groups.getD g [])).flatten).zip
          ((gs.map (fun g => assignGroup valid (b g) (groups.getD g []))).flatten)
        = (gs.map (fun g =>
            (groups.getD g []).zip (assignGroup valid (b g) (groups.getD g [])))).flatten
  | [] => rfl
  | g :: gs => by
    rw [List.map_cons, List.map_cons, List.map_cons, List.flatten_cons, List.flatten_cons,
      List.flatten_cons, List.zip_append (by rw [assignGroup_length]),
      flatten_zip_assign valid groups b gs]

theorem indexation_zip_mem_aux (valid : α → Bool) (groups : List (List α)) (b : ℕ → ℕ)
    (gs : List ℕ) :
    ∀ p ∈ ((gs.map (fun g => groups.getD g [])).flatten).zip
        ((gs.map (fun g => assignGroup valid (b g) (groups.getD g []))).flatten),
      (valid p.1 = false → p.2 = u32MAX) ∧
        (valid p.1 = true → ∃ g ∈ gs, b g ≤ p.2 ∧ p.2 < b g + groupTotal valid groups g) := by
  intro p hp
  rw [flatten_zip_assign, List.mem_flatten] at hp
  obtain ⟨l, hl, hpl⟩ := hp
  rw [List.mem_map] at hl
  obtain ⟨g, hg, rfl⟩ := hl
  obtain ⟨h1, h2⟩ := assignGroup_zip_mem valid (groups.getD g []) (b g) p hpl
  exact ⟨h1, fun hv => ⟨g, hg, h2 hv⟩⟩

theorem indexation_zip_filter_aux (valid : α → Bool) (groups : List (List α)) (b : ℕ → ℕ)
    (gs : List ℕ) :
    ((((gs.map (fun g => groups.getD g [])).flatten).zip
        ((gs.map (fun g => assignGroup valid (b g) (groups.getD g []))).flatten)).filter
          (fun p => valid p.1)).map Prod.snd
      = (gs.map (fun g => (List.range (groupTotal valid groups g)).map (b g + ·))).flatten := by
  rw [flatten_zip_assign, List.filter_flatten, List.map_flatten, List.map_map, List.map_map]
  congr 1
  apply List.map_congr_left
  intro g _
  simp only [Function.comp_apply]
  rw [assignGroup_zip_filter]
  rfl

/-- In completion order, the base offsets are the prefix sums of the
workgroup totals, so the assigned index blocks tile an initial segment of
the naturals exactly. -/
theorem blocks_tile (td : ℕ → ℕ) :
    ∀ (order : List ℕ), order.Nodup → ∀ (acc : ℕ),
      (order.map (fun g => (List.range (td g)).map
          ((acc + ((order.takeWhile (fun x => x != g)).map td).sum) + ·))).flatten
        = (List.range ((order.map td).sum)).map (acc + ·)
  | [], _, acc => by simp
  | g₀ :: rest, hnd, acc => by
    have hg₀ : g₀ ∉ rest := (List.nodup_cons.mp hnd).1
    have hnd' : rest.Nodup := (List.nodup_cons.mp hnd).2
    rw [List.map_cons, List.flatten_cons]
    have htw0 : ((g₀ :: rest).takeWhile (fun x => x != g₀)) = [] := by
      rw [List.takeWhile_cons]
      simp
    have hbody : rest.map (fun g => (List.range (td g)).map
          ((acc + (((g₀ :: rest).takeWhile (fun x => x != g)).map td).sum) + ·))
        = rest.map (fun g => (List.range (td g)).map
          (((acc + td g₀) + ((rest.takeWhile (fun x => x != g)).map td).sum) + ·)) := by
      apply List.map_congr_left
      intro g hg
      have hne : (g₀ != g) = true := by
        rw [bne_iff_ne]
        intro hgg
        exact hg₀ (hgg ▸ hg)
      rw [List.takeWhile_cons, if_pos hne, List.map_cons, List.sum_cons]
      congr 1
      funext i
      omega
    rw [htw0, hbody, blocks_tile td rest hnd' (acc + td g₀)]
    have hhead : (List.range (td g₀)).map
        ((acc + (([] : List ℕ).map td).sum) + ·) = (List.range (td g₀)).map (acc + ·) := rfl
    rw [hhead, List.map_cons, List.sum_cons, List.range_add, List.map_append, List.map_map]
    congr 1
    apply List.map_congr_left
    intro i _
    simp only [Function.comp_apply]
    omega

theorem baseOf_add_le (td : ℕ → ℕ) :
    ∀ (order : List ℕ) (g : ℕ), g ∈ order →
      ((order.takeWhile (fun x => x != g)).map td).sum + td g ≤ (order.map td).sum
  | [], g, hg => absurd hg (List.not_mem_nil g)
  | a :: rest, g, hg => by
    rw [List.takeWhile_cons]
    by_cases hag : (a != g) = true
    · rw [if_pos hag]
      have hgr : g ∈ rest := by
        rcases List.mem_cons.mp hg with h | h
        · exact absurd h.symm (bne_iff_ne.mp hag)
        · exact h
      rw [List.map_cons, List.sum_cons, List.map_cons, List.sum_cons]
      have := baseOf_add_le td rest g hgr
      omega
    · rw [if_neg hag]
      have hag' : a = g := by simpa using hag
      subst hag'
      rw [List.map_cons, List.sum_cons]
      simp

theorem indexation_length (valid : α → Bool) (order : List ℕ) (cands : List α) :
    (indexation valid order cands).length = cands.length := by
  have h1 : (indexation valid order cands).length
      = (((List.range (chunks64 cands).length).map
          (fun g => (chunks64 cands).getD g [])).map List.length).sum := by
    rw [indexation, List.length_flatten, List.map_map, List.map_map]
    congr 1
    apply List.map_congr_left
    intro g _
    simp only [Function.comp_apply]
    rw [assignGroup_length]
  rw [h1, getD_range_map, ← List.length_flatten, chunks64_flatten]

theorem indexationCount_eq (valid : α → Bool) (cands : List α) :
    indexationCount valid cands = cands.countP valid := by
  rw [indexationCount, ← List.countP_flatten, chunks64_flatten]

theorem cands_eq_flatten_getD (cands : List α) :
    ((List.range (chunks64 cands).length).map
      (fun g => (chunks64 cands).getD g [])).flatten = cands := by
  rw [getD_range_map, chunks64_flatten]

theorem indexation_invalid (valid : α → Bool) (order : List ℕ) (cands : List α) :
    ∀ p ∈ cands.zip (indexation valid order cands), valid p.1 = false → p.2 = u32MAX := by
  have haux := indexation_zip_mem_aux valid (chunks64 cands)
    (fun g => baseOf valid (chunks64 cands) order g) (List.range (chunks64 cands).length)
  rw [cands_eq_flatten_getD] at haux
  intro p hp hv
  exact (haux p hp).1 hv

theorem indexation_valid_lt (valid : α → Bool) (order : List ℕ) (cands : List α)
    (horder : order.Perm (List.range (chunks64 cands).length)) :
    ∀ p ∈ cands.zip (indexation valid order cands), valid p.1 = true →
      p.2 < indexationCount valid cands := by
  have haux := indexation_zip_mem_aux valid (chunks64 cands)
    (fun g => baseOf valid (chunks64 cands) order g) (List.range (chunks64 cands).length)
  rw [cands_eq_flatten_getD] at haux
  intro p hp hv
  obtain ⟨g, hg, hle, hlt⟩ := (haux p hp).2 hv
  have hgord : g ∈ order := (horder.mem_iff).mpr hg
  have hb := baseOf_add_le (groupTotal valid (chunks64 cands)) order g hgord
  have hsum : (order.map (groupTotal valid (chunks64 cands))).sum
      = indexationCount valid cands := by
    rw [(horder.map (groupTotal valid (chunks64 cands))).sum_eq]
    rw [indexationCount]
    congr 1
    have h2 := getD_range_map (chunks64 cands) ([] : List α)
    calc (List.range (chunks64 cands).length).map (groupTotal valid (chunks64 cands))
        = ((List.range (chunks64 cands).length).map
            (fun g => (chunks64 cands).getD g [])).map (fun grp => grp.countP valid) := by
          rw [List.map_map]
          rfl
      _ = (chunks64 cands).map (fun grp => grp.countP valid) := by rw [h2]
  rw [← hsum]
  exact lt_of_lt_of_le hlt hb

theorem indexation_perm (valid : α → Bool) (order : List ℕ) (cands : List α)
    (horder : order.Perm (List.range (chunks64 cands).length)) :
    (((cands.zip (indexation valid order cands)).filter
        (fun p => valid p.1)).map Prod.snd).Perm
      (List.range (cands.countP valid)) := by
  have haux := indexation_zip_filter_aux valid (chunks64 cands)
    (fun g => baseOf valid (chunks64 cands) order g) (List.range (chunks64 cands).length)
  rw [cands_eq_flatten_getD] at haux
  have hstep : ((cands.zip (indexation valid order cands)).filter
      (fun p => valid p.1)).map Prod.snd
      = ((List.range (chunks64 cands).length).map
          (fun g => (List.range (groupTotal valid (chunks64 cands) g)).map
            (baseOf valid (chunks64 cands) order g + ·))).flatten := haux
  rw [hstep]
  have hnd : order.Nodup := horder.symm.nodup (List.nodup_range _)
  have hperm1 := (horder.symm.map (fun g =>
    (List.range (groupTotal valid (chunks64 cands) g)).map
      (baseOf valid (chunks64 cands) order g + ·))).flatten
  refine hperm1.trans ?_
  have hzero : order.map (fun g =>
        (List.range (groupTotal valid (chunks64 cands) g)).map
          (baseOf valid (chunks64 cands) order g + ·))
      = order.map (fun g => (List.range (groupTotal valid (chunks64 cands) g)).map
          ((0 + ((order.takeWhile (fun x => x != g)).map
            (groupTotal valid (chunks64 cands))).sum) + ·)) := by
    apply List.map_congr_left
    intro g _
    congr 1
    funext i
    rw [baseOf]
    omega
  rw [hzero, blocks_tile (groupTotal valid (chunks64 cands)) order hnd 0]
  have hsum : (order.map (groupTotal valid (chunks64 cands))).sum = cands.countP valid := by
    rw [(horder.map (groupTotal valid (chunks64 cands))).sum_eq]
    have h2 := getD_range_map (chunks64 cands) ([] : List α)
    calc (((List.range (chunks64 cands).length).map
          (groupTotal valid (chunks64 cands)))).sum
        = ((((List.range (chunks64 cands).length).map
            (fun g => (chunks64 cands).getD g [])).map (fun grp => grp.countP valid))).sum := by
          rw [List.map_map]
          rfl
      _ = (((chunks64 cands).map (fun grp => grp.countP valid))).sum := by rw [h2]
      _ = cands.countP valid := by rw [← List.countP_flatten, chunks64_flatten]
  rw [hsum]
  have hid : (List.range (cands.countP valid)).map (0 + ·)
      = List.range (cands.countP valid) := by
    have h0 : ((0 + ·) : ℕ → ℕ) = id := by
      funext i
      simp
    rw [h0, List.map_id]
  rw [hid]

theorem scatterStep_length (o : List α) (p : α × ℕ) :
    (scatterStep o p).length = o.length := by
  rw [scatterStep]
  by_cases h : p.2 ≠ u32MAX
  · rw [if_pos h, List.length_set]
  · rw [if_neg h]

theorem scatterFold_length :
    ∀ (ps : List (α × ℕ)) (out : List α), (ps.foldl scatterStep out).length = out.length
  | [], _ => rfl
  | p :: ps, out => by
    rw [List.foldl_cons, scatterFold_length ps, scatterStep_length]

theorem scatterFold_get_not_mem :
    ∀ (ps : List (α × ℕ)) (out : List α) (k : ℕ), (∀ p ∈ ps, p.2 ≠ k) →
      (ps.foldl scatterStep out)[k]? = out[k]?
  | [], _, _, _ => rfl
  | p :: ps, out, k, h => by
    rw [List.foldl_cons,
      scatterFold_get_not_mem ps _ k (fun q hq => h q (List.mem_cons_of_mem p hq))]
    rw [scatterStep]
    by_cases hc : p.2 ≠ u32MAX
    · rw [if_pos hc, List.getElem?_set_ne (h p (List.mem_cons_self p ps))]
    · rw [if_neg hc]

theorem scatterFold_get_found :
    ∀ (ps : List (α × ℕ)) (out : List α) (k : ℕ) (c : α),
      k < out.length → k ≠ u32MAX → (c, k) ∈ ps → (∀ p ∈ ps, p.2 = k → p.1 = c) →
      (ps.foldl scatterStep out)[k]? = some c
  | [], _, _, _, _, _, hmem, _ => absurd hmem (List.not_mem_nil _)
  | p :: ps, out, k, c, hk, hkM, hmem, huniq => by
    rw [List.foldl_cons]
    by_cases hs : ∃ q ∈ ps, q.2 = k
    · obtain ⟨q, hq, hq2⟩ := hs
      have hq1 : q.1 = c := huniq q (List.mem_cons_of_mem p hq) hq2
      have hqeq : q = (c, k) := by
        cases q
        simp_all
      refine scatterFold_get_found ps (scatterStep out p) k c ?_ hkM (hqeq ▸ hq)
        (fun r hr h2 => huniq r (List.mem_cons_of_mem p hr) h2)
      rw [scatterStep_length]
      exact hk
    · push_neg at hs
      rw [scatterFold_get_not_mem ps _ k hs]
      have hp : p = (c, k) := by
        rcases List.mem_cons.mp hmem with h | h
        · exact h.symm
        · exact absurd rfl (hs (c, k) h)
      subst hp
      rw [scatterStep, if_pos (show ((c, k) : α × ℕ).2 ≠ u32MAX from hkM),
        List.getElem?_set_self hk]

theorem uniq_snd_find {L : List (α × ℕ)}
    (hU : ∀ p ∈ L, ∀ q ∈ L, p.2 = q.2 → p = q) {q : α × ℕ} (hq : q ∈ L) :
    L.find? (fun p => p.2 == q.2) = some q := by
  have hsome : (L.find? (fun p => p.2 == q.2)).isSome = true :=
    List.find?_isSome.mpr ⟨q, hq, by simp⟩
  obtain ⟨r, hr⟩ := Option.isSome_iff_exists.mp hsome
  have hrL : r ∈ L := List.mem_of_find?_eq_some hr
  have hr2 : r.2 = q.2 := by
    have := List.find?_some hr
    simpa using this
  rw [hr, hU r hrL q hq hr2]

theorem scatter_take_eq (cands : List α) (indices : List ℕ) (out : List α)
    (dflt : α) (count : ℕ)
    (hperm : ((validPairs cands indices).map Prod.snd).Perm (List.range count))
    (hcount : count ≤ out.length) :
    (scatterWrites cands indices out).take count = gatherSpec cands indices count dflt := by
  have hnodup : ((validPairs cands indices).map Prod.snd).Nodup :=
    hperm.symm.nodup (List.nodup_range count)
  have hU : ∀ p ∈ validPairs cands indices, ∀ q ∈ validPairs cands indices,
      p.2 = q.2 → p = q :=
    fun p hp q hq h2 => List.inj_on_of_nodup_map hnodup hp hq h2
  apply List.ext_getElem?
  intro k
  by_cases hkc : k < count
  · have hmemk : k ∈ (validPairs cands indices).map Prod.snd :=
      hperm.symm.mem_iff.mp (List.mem_range.mpr hkc)
    rw [List.mem_map] at hmemk
    obtain ⟨q, hqL, hq2⟩ := hmemk
    have hqzip : q ∈ cands.zip indices := List.mem_of_mem_filter hqL
    have hqM : q.2 ≠ u32MAX := by
      have := List.of_mem_filter hqL
      simpa using this
    have hkM : k ≠ u32MAX := hq2 ▸ hqM
    have huniq : ∀ p ∈ cands.zip indices, p.2 = k → p.1 = q.1 := by
      intro p hp hpk
      have hpM : p.2 ≠ u32MAX := by
        rw [hpk]
        exact hkM
      have hpL : p ∈ validPairs cands indices := by
        rw [validPairs, List.mem_filter]
        exact ⟨hp, by simpa using hpM⟩
      have : p = q := hU p hpL q hqL (by rw [hpk, hq2])
      rw [this]
    have hscatter : (scatterWrites cands indices out)[k]? = some q.1 := by
      rw [scatterWrites]
      refine scatterFold_get_found (cands.zip indices) out k q.1
        (lt_of_lt_of_le hkc hcount) hkM ?_ huniq
      have : q = (q.1, k) := by
        cases q
        simp_all
      exact this ▸ hqzip
    have hfindk : (validPairs cands indices).find? (fun p => p.2 == k) = some q := by
      have := uniq_snd_find hU hqL
      rw [hq2] at this
      exact this
    rw [List.getElem?_take, if_pos hkc, hscatter, gatherSpec, List.getElem?_map,
      List.getElem?_range hkc]
    simp [hfindk]
  · rw [List.getElem?_take, if_neg hkc]
    have hlen2 : (gatherSpec cands indices count dflt).length = count := by
      rw [gatherSpec, List.length_map, List.length_range]
    rw [List.getElem?_eq_none (by omega : (gatherSpec cands indices count dflt).length ≤ k)]

theorem scatter_take_perm [DecidableEq α] (cands : List α) (indices : List ℕ)
    (out : List α) (dflt : α) (count : ℕ)
    (hperm : ((validPairs cands indices).map Prod.snd).Perm (List.range count))
    (hcount : count ≤ out.length) :
    ((scatterWrites cands indices out).take count).Perm
      ((validPairs cands indices).map Prod.fst) := by
  have hnodup : ((validPairs cands indices).map Prod.snd).Nodup :=
    hperm.symm.nodup (List.nodup_range count)
  have hU : ∀ p ∈ validPairs cands indices, ∀ q ∈ validPairs cands indices,
      p.2 = q.2 → p = q :=
    fun p hp q hq h2 => List.inj_on_of_nodup_map hnodup hp hq h2
  rw [scatter_take_eq cands indices out dflt count hperm hcount]
  rw [List.perm_iff_count]
  intro a
  rw [gatherSpec, List.count_eq_countP, List.count_eq_countP, List.countP_map,
    List.countP_map]
  have h1 : List.countP ((fun x => x == a) ∘ fun k =>
      (Option.map Prod.fst ((validPairs cands indices).find? (fun p => p.2 == k))).getD dflt)
      (List.range count)
      = List.countP ((fun x => x == a) ∘ fun k =>
        (Option.map Prod.fst ((validPairs cands indices).find? (fun p => p.2 == k))).getD dflt)
        ((validPairs cands indices).map Prod.snd) :=
    (hperm.symm.countP_eq _)
  rw [h1, List.countP_map]
  apply List.countP_congr
  intro p hp
  simp only [Function.comp_apply]
  have hfind : (validPairs cands indices).find? (fun r => r.2 == p.2) = some p :=
    uniq_snd_find hU hp
  rw [hfind]
  rfl

theorem zip_filter_map_fst (valid : α → Bool) :
    ∀ (l : List α) (il : List ℕ), l.length = il.length →
      ((l.zip il).filter (fun p => valid p.1)).map Prod.fst = l.filter valid
  | [], _, _ => by simp
  | _ :: _, [], h => by simp at h
  | a :: as, i :: is, h => by
    rw [List.zip_cons_cons, List.filter_cons, List.filter_cons]
    by_cases hv : valid a = true
    · rw [if_pos (show valid ((a, i) : α × ℕ).1 = true from hv), if_pos hv, List.map_cons]
      rw [zip_filter_map_fst valid as is (by simpa using h)]
    · rw [if_neg (show ¬ valid ((a, i) : α × ℕ).1 = true from hv), if_neg hv]
      rw [zip_filter_map_fst valid as is (by simpa using h)]

theorem validPairs_eq_filter_valid (valid : α → Bool) (order : List ℕ) (cands : List α)
    (horder : order.Perm (List.range (chunks64 cands).length))
    (hlen : cands.length ≤ u32MAX) :
    validPairs cands (indexation valid order cands)
      = (cands.zip (indexation valid order cands)).filter (fun p => valid p.1) := by
  rw [validPairs]
  apply List.filter_congr
  intro p hp
  by_cases hv : valid p.1 = true
  · have hlt := indexation_valid_lt valid order cands horder p hp hv
    rw [indexationCount_eq] at hlt
    have hple : cands.countP valid ≤ cands.length := List.countP_le_length valid
    have hne : p.2 ≠ u32MAX := by omega
    simp [hv, hne]
  · have hM := indexation_invalid valid order cands p hp (by simpa using hv)
    rw [hM]
    simp [hv]

theorem compact_perm [DecidableEq α] (valid : α → Bool) (order : List ℕ) (dflt : α)
    (cands : List α)
    (horder : order.Perm (List.range (chunks64 cands).length))
    (hlen : cands.length ≤ u32MAX) :
    (compact valid order dflt cands).Perm (cands.filter valid) := by
  have hvp := validPairs_eq_filter_valid valid order cands horder hlen
  have hperm : ((validPairs cands (indexation valid order cands)).map Prod.snd).Perm
      (List.range (indexationCount valid cands)) := by
    rw [hvp, indexationCount_eq]
    exact indexation_perm valid order cands horder
  have htake := scatter_take_perm cands (indexation valid order cands)
    (List.replicate (indexationCount valid cands) dflt) dflt
    (indexationCount valid cands) hperm (by rw [List.length_replicate])
  rw [compact]
  refine htake.trans ?_
  rw [hvp, zip_filter_map_fst valid cands _ (indexation_length valid order cands).symm]

theorem compact_length (valid : α → Bool) (order : List ℕ) (dflt : α) (cands : List α) :
    (compact valid order dflt cands).length = indexationCount valid cands := by
  rw [compact, List.length_take, scatterWrites, scatterFold_length, List.length_replicate,
    min_self]

theorem scatterFold_mem :
    ∀ (ps : List (α × ℕ)) (out : List α), ∀ a ∈ ps.foldl scatterStep out,
      (∃ p ∈ ps, a = p.1) ∨ a ∈ out
  | [], _, _, ha => Or.inr ha
  | p :: ps, out, a, ha => by
    rw [List.foldl_cons] at ha
    rcases scatterFold_mem ps (scatterStep out p) a ha with h | h
    · obtain ⟨q, hq, hq1⟩ := h
      exact Or.inl ⟨q, List.mem_cons_of_mem p hq, hq1⟩
    · rw [scatterStep] at h
      by_cases hc : p.2 ≠ u32MAX
      · rw [if_pos hc] at h
        rcases List.mem_or_eq_of_mem_set h with h2 | h2
        · exact Or.inr h2
        · exact Or.inl ⟨p, List.mem_cons_self p ps, h2⟩
      · rw [if_neg hc] at h
        exact Or.inr h

theorem compact_mem (valid : α → Bool) (order : List ℕ) (dflt : α) (cands : List α) :
    ∀ a ∈ compact valid order dflt cands, a ∈ cands ∨ a = dflt := by
  intro a ha
  rw [compact] at ha
  have ha2 := List.Sublist.mem ha (List.take_sublist _ _)
  rw [scatterWrites] at ha2
  rcases scatterFold_mem _ _ a ha2 with h | h
  · obtain ⟨p, hp, rfl⟩ := h
    obtain ⟨c, i, rfl⟩ : ∃ c i, p = (c, i) := ⟨p.1, p.2, rfl⟩
    exact Or.inl (List.of_mem_zip hp).1
  · exact Or.inr (List.eq_of_mem_replicate h)

theorem sum_map_const_range (n c : ℕ) : ((List.range n).map (fun _ => c)).sum = n * c := by
  rw [List.map_const', List.sum_replicate, List.length_range, smul_eq_mul]

theorem generationDispatch_length (w : WorldData) (lb B : Vec2) (stencil : List Vec2)
    (nwx nwy : ℕ) :
    (generationDispatch w lb B stencil nwx nwy).length = nwx * (nwy * stencil.length) := by
  rw [generationDispatch, List.length_flatMap]
  have h1 : List.map (List.length ∘ fun wx =>
        (List.range nwy).flatMap fun wy =>
          (List.range stencil.length).map fun l =>
            genCandidate w lb B (stencil.getD l ⟨0, 0⟩) wx wy) (List.range nwx)
      = (List.range nwx).map (fun _ => nwy * stencil.length) := by
    apply List.map_congr_left
    intro wx _
    simp only [Function.comp_apply]
    rw [List.length_flatMap]
    have h2 : List.map (List.length ∘ fun wy =>
          (List.range stencil.length).map fun l =>
            genCandidate w lb B (stencil.getD l ⟨0, 0⟩) wx wy) (List.range nwy)
        = (List.range nwy).map (fun _ => stencil.length) := by
      apply List.map_congr_left
      intro wy _
      simp only [Function.comp_apply]
      rw [List.length_map, List.length_range]
    rw [h2, sum_map_const_range]
  rw [h1, sum_map_const_range]

theorem generationDispatch_mem {w : WorldData} {lb B : Vec2} {stencil : List Vec2}
    {nwx nwy : ℕ} {cuv : Candidate × Vec2}
    (h : cuv ∈ generationDispatch w lb B stencil nwx nwy) :
    ∃ wx wy l, wx < nwx ∧ wy < nwy ∧ l < stencil.length ∧
      cuv = genCandidate w lb B (stencil.getD l ⟨0, 0⟩) wx wy := by
  rw [generationDispatch, List.mem_flatMap] at h
  obtain ⟨wx, hwx, h⟩ := h
  rw [List.mem_flatMap] at h
  obtain ⟨wy, hwy, h⟩ := h
  rw [List.mem_map] at h
  obtain ⟨l, hl, h⟩ := h
  exact ⟨wx, wy, l, List.mem_range.mp hwx, List.mem_range.mp hwy,
    List.mem_range.mp hl, h.symm⟩

theorem evalClassesGo_range (r : ℚ) (uv : Vec2) :
    ∀ (dmaps : List DensityMap) (i : ℕ) (acc : ℚ),
      evalClassesGo r uv i acc dmaps = u32MAX ∨
        (i ≤ evalClassesGo r uv i acc dmaps ∧
          evalClassesGo r uv i acc dmaps < i + dmaps.length)
  | [], _, _ => Or.inl rfl
  | d :: rest, i, acc => by
    rw [evalClassesGo]
    by_cases h : acc ≤ r ∧ r < acc + d.sample uv * d.scale
    · rw [if_pos h]
      right
      refine ⟨le_rfl, ?_⟩
      rw [List.length_cons]
      omega
    · rw [if_neg h]
      rcases evalClassesGo_range r uv rest (i + 1) (acc + d.sample uv * d.scale)
        with h1 | h1
      · exact Or.inl h1
      · right
        rw [List.length_cons]
        omega

theorem evaluateCandidate_posX (hash : Vec2 → ℚ) (lb ub : Vec2) (dmaps : List DensityMap)
    (cuv : Candidate × Vec2) :
    (evaluateCandidate hash lb ub dmaps cuv).posX = cuv.1.posX ∧
      (evaluateCandidate hash lb ub dmaps cuv).posZ = cuv.1.posZ := by
  rw [evaluateCandidate]
  by_cases h : inRegion lb ub ⟨cuv.1.posX, cuv.1.posZ⟩
  · rw [if_pos h]
    exact ⟨rfl, rfl⟩
  · rw [if_neg h]
    exact ⟨rfl, rfl⟩

theorem evaluateCandidate_inRegion (hash : Vec2 → ℚ) (lb ub : Vec2)
    (dmaps : List DensityMap) (cuv : Candidate × Vec2)
    (hstart : cuv.1.classIndex = u32MAX)
    (h : (evaluateCandidate hash lb ub dmaps cuv).classIndex ≠ u32MAX) :
    inRegion lb ub ⟨cuv.1.posX, cuv.1.posZ⟩ := by
  by_cases hr : inRegion lb ub ⟨cuv.1.posX, cuv.1.posZ⟩
  · exact hr
  · rw [evaluateCandidate, if_neg hr] at h
    exact absurd hstart h

theorem flatten_replicate_nil (n : ℕ) :
    (List.replicate n ([] : List α)).flatten = [] := by
  induction n with
  | zero => rfl
  | succ k ih => rw [List.replicate_succ, List.flatten_cons, List.nil_append, ih]

theorem getD_map_range {β : Type} (n : ℕ) (f : ℕ → β) (d : β) (i : ℕ) :
    ((List.range n).map f).getD i d = if i < n then f i else d := by
  rw [List.getD_eq_getElem?_getD, List.getElem?_map]
  by_cases h : i < n
  · rw [List.getElem?_range h, if_pos h]
    rfl
  · rw [if_neg h, List.getElem?_eq_none (by rw [List.length_range]; omega)]
    rfl

theorem flatten_map_perm {β γ : Type} (r : List β) (f g : β → List γ)
    (h : ∀ x ∈ r, (f x).Perm (g x)) :
    ((r.map f).flatten).Perm ((r.map g).flatten) := by
  induction r with
  | nil => exact List.Perm.refl _
  | cons a as ih =>
    rw [List.map_cons, List.map_cons, List.flatten_cons, List.flatten_cons]
    exact (h a (List.mem_cons_self a as)).append
      (ih (fun x hx => h x (List.mem_cons_of_mem a hx)))

theorem computePlacement_numClasses (hash : Vec2 → ℚ) (pipe : Pipeline) (w : WorldData)
    (layer : LayerData) (lb ub : Vec2) (sched : ℕ → List ℕ) :
    (computePlacement hash pipe w layer lb ub sched).numClasses
      = layer.densitymaps.length := by
  rw [computePlacement]
  by_cases h : ub.x ≤ lb.x ∨ ub.y ≤ lb.y
  · rw [if_pos h]
  · rw [if_neg h]

theorem computePlacement_empty (hash : Vec2 → ℚ) (pipe : Pipeline) (w : WorldData)
    (layer : LayerData) (lb ub : Vec2) (sched : ℕ → List ℕ)
    (h : ub.x ≤ lb.x ∨ ub.y ≤ lb.y) :
    (computePlacement hash pipe w layer lb ub sched).copyAllToHost = []
      ∧ (computePlacement hash pipe w layer lb ub sched).getElementArrayLength = 0
      ∧ (computePlacement hash pipe w layer lb ub sched).numClasses
          = layer.densitymaps.length := by
  rw [computePlacement, if_pos h]
  refine ⟨?_, ?_, rfl⟩
  · rw [PlacementResult.copyAllToHost]
    exact flatten_replicate_nil layer.densitymaps.length
  · rw [PlacementResult.getElementArrayLength]
    simp

/-- Every element of a Result (with a live class index) originates from a
specific generation invocation `(workgroup, stencil slot)`, evaluated. -/
theorem computePlacement_mem_decode (hash : Vec2 → ℚ) (pipe : Pipeline) (w : WorldData)
    (layer : LayerData) (lb ub : Vec2) (sched : ℕ → List ℕ) {A : Candidate}
    (hA : A ∈ (computePlacement hash pipe w layer lb ub sched).copyAllToHost)
    (hAv : A.classIndex ≠ u32MAX) :
    ∃ wx wy l, wx < (calculateNumWorkGroups pipe.stencilBounds lb ub).1 ∧
      wy < (calculateNumWorkGroups pipe.stencilBounds lb ub).2 ∧
      l < pipe.stencil.length ∧
      A = evaluateCandidate hash lb ub layer.densitymaps
        (genCandidate w lb pipe.stencilBounds (pipe.stencil.getD l ⟨0, 0⟩) wx wy) := by
  rw [computePlacement] at hA
  by_cases h : ub.x ≤ lb.x ∨ ub.y ≤ lb.y
  · rw [if_pos h] at hA
    rw [PlacementResult.copyAllToHost] at hA
    rw [flatten_replicate_nil] at hA
    exact absurd hA (List.not_mem_nil A)
  · rw [if_neg h] at hA
    rw [PlacementResult.copyAllToHost, List.mem_flatten] at hA
    obtain ⟨blk, hblk, hAblk⟩ := hA
    rw [List.mem_map] at hblk
    obtain ⟨i, _, rfl⟩ := hblk
    rcases compact_mem (classValid i) (sched i) defaultCandidate
      (evaluatedOf hash pipe w layer lb ub) A hAblk with hmem | hdflt
    · rw [evaluatedOf, List.mem_map] at hmem
      obtain ⟨cuv, hcuv, rfl⟩ := hmem
      obtain ⟨wx, wy, l, hwx, hwy, hl, rfl⟩ := generationDispatch_mem hcuv
      exact ⟨wx, wy, l, hwx, hwy, hl, rfl⟩
    · rw [hdflt] at hAv
      exact absurd rfl hAv

/-- The candidates produced by a GenerationKernel dispatch all carry the
invalid sentinel class. -/
theorem generationDispatch_class (w : WorldData) (lb B : Vec2) (stencil : List Vec2)
    (nwx nwy : ℕ) :
    ∀ cuv ∈ generationDispatch w lb B stencil nwx nwy, cuv.1.classIndex = u32MAX := by
  intro cuv hcuv
  obtain ⟨wx, wy, l, _, _, _, rfl⟩ := generationDispatch_mem hcuv
  rfl

/-- Core of the Result separation invariant: distinct elements of one
Result are at least a footprint apart horizontally. -/
theorem computePlacement_separation (hash : Vec2 → ℚ) (pipe : Pipeline) (w : WorldData)
    (layer : LayerData) (lb ub : Vec2) (sched : ℕ → List ℕ)
    (htor : toroidalOk pipe.stencil pipe.stencilBounds layer.footprint)
    (hrange : stencilInRange pipe.stencil pipe.stencilBounds)
    (hfx : layer.footprint ≤ pipe.stencilBounds.x)
    (hfy : layer.footprint ≤ pipe.stencilBounds.y)
    (hf : 0 < layer.footprint) :
    ∀ A ∈ (computePlacement hash pipe w layer lb ub sched).copyAllToHost,
      ∀ A' ∈ (computePlacement hash pipe w layer lb ub sched).copyAllToHost,
        A.classIndex ≠ u32MAX → A'.classIndex ≠ u32MAX → A ≠ A' →
        layer.footprint ^ 2 ≤ dist2 ⟨A.posX, A.posZ⟩ ⟨A'.posX, A'.posZ⟩ := by
  intro A hA A' hA' hAv hA'v hne
  obtain ⟨wx₁, wy₁, l₁, hwx₁, hwy₁, hl₁, hAeq⟩ :=
    computePlacement_mem_decode hash pipe w layer lb ub sched hA hAv
  obtain ⟨wx₂, wy₂, l₂, hwx₂, hwy₂, hl₂, hA'eq⟩ :=
    computePlacement_mem_decode hash pipe w layer lb ub sched hA' hA'v
  have htriple : (wx₁, wy₁, l₁) ≠ (wx₂, wy₂, l₂) := by
    intro hcon
    simp only [Prod.mk.injEq] at hcon
    obtain ⟨e1, e2, e3⟩ := hcon
    apply hne
    rw [hAeq, hA'eq, e1, e2, e3]
  have hAx : A.posX
      = lb.x + wx₁ * pipe.stencilBounds.x + (pipe.stencil.getD l₁ ⟨0, 0⟩).x := by
    rw [hAeq, (evaluateCandidate_posX hash lb ub layer.densitymaps _).1]
    rfl
  have hAz : A.posZ
      = lb.y + wy₁ * pipe.stencilBounds.y + (pipe.stencil.getD l₁ ⟨0, 0⟩).y := by
    rw [hAeq, (evaluateCandidate_posX hash lb ub layer.densitymaps _).2]
    rfl
  have hA'x : A'.posX
      = lb.x + wx₂ * pipe.stencilBounds.x + (pipe.stencil.getD l₂ ⟨0, 0⟩).x := by
    rw [hA'eq, (evaluateCandidate_posX hash lb ub layer.densitymaps _).1]
    rfl
  have hA'z : A'.posZ
      = lb.y + wy₂ * pipe.stencilBounds.y + (pipe.stencil.getD l₂ ⟨0, 0⟩).y := by
    rw [hA'eq, (evaluateCandidate_posX hash lb ub layer.densitymaps _).2]
    rfl
  rw [hAx, hAz, hA'x, hA'z]
  exact lattice_sep pipe.stencil pipe.stencilBounds layer.footprint htor hrange hfx hfy hf
    lb wx₁ wy₁ l₁ wx₂ wy₂ l₂ hl₁ hl₂ htriple

/-- Core of the region invariant: every Result element was assigned a live
class, which only happens to candidates inside `[lower, upper)`. -/
theorem computePlacement_in_bounds (hash : Vec2 → ℚ) (pipe : Pipeline) (w : WorldData)
    (layer : LayerData) (lb ub : Vec2) (sched : ℕ → List ℕ)
    (hsched : ∀ i, (sched i).Perm
      (List.range (chunks64 (evaluatedOf hash pipe w layer lb ub)).length))
    (hlen : (evaluatedOf hash pipe w layer lb ub).length ≤ u32MAX)
    (hcls : layer.densitymaps.length ≤ u32MAX) :
    ∀ A ∈ (computePlacement hash pipe w layer lb ub sched).copyAllToHost,
      inRegion lb ub ⟨A.posX, A.posZ⟩ ∧ A.classIndex < layer.densitymaps.length := by
  intro A hA
  rw [computePlacement] at hA
  by_cases h : ub.x ≤ lb.x ∨ ub.y ≤ lb.y
  · rw [if_pos h, PlacementResult.copyAllToHost, flatten_replicate_nil] at hA
    exact absurd hA (List.not_mem_nil A)
  · rw [if_neg h, PlacementResult.copyAllToHost, List.mem_flatten] at hA
    obtain ⟨blk, hblk, hAblk⟩ := hA
    rw [List.mem_map] at hblk
    obtain ⟨i, hi, rfl⟩ := hblk
    have hperm := compact_perm (classValid i) (sched i) defaultCandidate
      (evaluatedOf hash pipe w layer lb ub) (hsched i) hlen
    have hAf : A ∈ (evaluatedOf hash pipe w layer lb ub).filter (classValid i) :=
      hperm.mem_iff.mp hAblk
    rw [List.mem_filter] at hAf
    obtain ⟨hAev, hAcls⟩ := hAf
    have hAi : A.classIndex = i := by
      simpa [classValid] using hAcls
    have hilen : i < layer.densitymaps.length := List.mem_range.mp hi
    have hiMAX : A.classIndex ≠ u32MAX := by
      rw [hAi]
      omega
    rw [evaluatedOf, List.mem_map] at hAev
    obtain ⟨cuv, hcuv, heq⟩ := hAev
    have hstart := generationDispatch_class w lb pipe.stencilBounds pipe.stencil
      (calculateNumWorkGroups pipe.stencilBounds lb ub).1
      (calculateNumWorkGroups pipe.stencilBounds lb ub).2 cuv hcuv
    have hreg := evaluateCandidate_inRegion hash lb ub layer.densitymaps cuv hstart
      (heq ▸ hiMAX)
    refine ⟨?_, hAi ▸ hilen⟩
    rw [← heq, (evaluateCandidate_posX hash lb ub layer.densitymaps cuv).1,
      (evaluateCandidate_posX hash lb ub layer.densitymaps cuv).2]
    exact hreg

/-- Core of determinism: the per-class element counts do not depend on the
workgroup completion orders, and the element multiset of the Result does
not either; with equal completion orders the Results coincide bitwise
(the model is a pure function). -/
theorem computePlacement_order_invariance (hash : Vec2 → ℚ) (pipe : Pipeline)
    (w : WorldData) (layer : LayerData) (lb ub : Vec2) (s₁ s₂ : ℕ → List ℕ)
    (h₁ : ∀ i, (s₁ i).Perm
      (List.range (chunks64 (evaluatedOf hash pipe w layer lb ub)).length))
    (h₂ : ∀ i, (s₂ i).Perm
      (List.range (chunks64 (evaluatedOf hash pipe w layer lb ub)).length))
    (hlen : (evaluatedOf hash pipe w layer lb ub).length ≤ u32MAX) :
    (computePlacement hash pipe w layer lb ub s₁).numClasses
        = (computePlacement hash pipe w layer lb ub s₂).numClasses
      ∧ (∀ i, (computePlacement hash pipe w layer lb ub s₁).getClassElementCount i
          = (computePlacement hash pipe w layer lb ub s₂).getClassElementCount i)
      ∧ ((computePlacement hash pipe w layer lb ub s₁).copyAllToHost).Perm
          ((computePlacement hash pipe w layer lb ub s₂).copyAllToHost) := by
  refine ⟨by rw [computePlacement_numClasses, computePlacement_numClasses], ?_, ?_⟩
  · intro i
    rw [computePlacement, computePlacement]
    by_cases h : ub.x ≤ lb.x ∨ ub.y ≤ lb.y
    · rw [if_pos h, if_pos h]
    · rw [if_neg h, if_neg h]
      simp only [PlacementResult.getClassElementCount]
      rw [getD_map_range, getD_map_range]
      by_cases hi : i < layer.densitymaps.length
      · rw [if_pos hi, if_pos hi, compact_length, compact_length]
      · rw [if_neg hi, if_neg hi]
  · rw [computePlacement, computePlacement]
    by_cases h : ub.x ≤ lb.x ∨ ub.y ≤ lb.y
    · rw [if_pos h, if_pos h]
    · rw [if_neg h, if_neg h]
      simp only [PlacementResult.copyAllToHost]
      apply flatten_map_perm
      intro i _
      exact (compact_perm (classValid i) (s₁ i) defaultCandidate
          (evaluatedOf hash pipe w layer lb ub) (h₁ i) hlen).trans
        (compact_perm (classValid i) (s₂ i) defaultCandidate
          (evaluatedOf hash pipe w layer lb ub) (h₂ i) hlen).symm

theorem calculateCandidateCount_mul (nw : ℕ × ℕ) :
    calculateCandidateCount nw = nw.1 * nw.2 * 64 := by
  rw [calculateCandidateCount]
  ring

theorem calculateNumWorkGroups_clamp (sb lb ub : Vec2) (hsx : 0 < sb.x) (hsy : 0 < sb.y) :
    (ub.x ≤ lb.x → (calculateNumWorkGroups sb lb ub).1 = 0) ∧
      (ub.y ≤ lb.y → (calculateNumWorkGroups sb lb ub).2 = 0) := by
  constructor <;> intro h
  · show (⌈(ub.x - lb.x) / sb.x⌉).toNat = 0
    apply Int.toNat_of_nonpos
    rw [show (0 : ℤ) = ((0 : ℤ)) from rfl, Int.ceil_le]
    push_cast
    exact div_nonpos_of_nonpos_of_nonneg (by linarith) (le_of_lt hsx)
  · show (⌈(ub.y - lb.y) / sb.y⌉).toNat = 0
    apply Int.toNat_of_nonpos
    rw [show (0 : ℤ) = ((0 : ℤ)) from rfl, Int.ceil_le]
    push_cast
    exact div_nonpos_of_nonpos_of_nonneg (by linarith) (le_of_lt hsy)

theorem generation_count_link (w : WorldData) (lb B : Vec2) (stencil : List Vec2)
    (nwx nwy : ℕ) (h64 : stencil.length = 64) :
    (generationDispatch w lb B stencil nwx nwy).length
      = calculateCandidateCount (nwx, nwy) := by
  rw [generationDispatch_length, h64, calculateCandidateCount]
  ring

/-- Amended toroidal guarantee of the dart-throwing generator: positions
stay inside the tile, pairs of distinct points whose grid cells lie in
each other's 3×3 toroidal neighborhood respect the footprint under every
shift from `{-1,0,1}²`, and every point respects the footprint against its
own nonzero toroidal images. -/
theorem disk_generator_amended (f s : ℚ) (m n : ℕ) (stream : List Vec2)
    (hf : 0 < f) (hs : 0 < s) (hm : 0 < m) (hn : 0 < n)
    (hmx : f ≤ m * s) (hny : f ≤ n * s)
    (hstream : ∀ c ∈ stream, inTile s m n c) :
    (∀ p ∈ diskRun f s m n stream, inTile s m n p)
      ∧ (∀ p ∈ diskRun f s m n stream, ∀ q ∈ diskRun f s m n stream, p ≠ q →
          neighborCells m n s p q = true →
          ∀ d ∈ shifts9, f ^ 2 ≤ dist2 p (shiftBy q d ⟨m * s, n * s⟩))
      ∧ (∀ p ∈ diskRun f s m n stream, ∀ d ∈ shifts9, d ≠ (0, 0) →
          f ^ 2 ≤ dist2 p (shiftBy p d ⟨m * s, n * s⟩)) := by
  obtain ⟨h1, h2⟩ := diskRun_inv hm hn hs hstream
  exact ⟨h1, h2, fun p _ => self_image_sep (le_of_lt hf) hmx hny p⟩

/-- Amended cross-dispatch guarantee of GenerationKernel: with identical
world data, stencil, stencil bounds and lower bound, all candidates of any
two dispatches (the discarded ones included) keep the footprint
separation. -/
theorem generation_cross_dispatch_sep (w : WorldData) (stencil : List Vec2) (B : Vec2)
    (f : ℚ) (lb : Vec2) (nw₁ nw₂ : ℕ × ℕ)
    (htor : toroidalOk stencil B f) (hrange : stencilInRange stencil B)
    (hfx : f ≤ B.x) (hfy : f ≤ B.y) (hf : 0 < f) :
    ∀ c₁ ∈ generationDispatch w lb B stencil nw₁.1 nw₁.2,
      ∀ c₂ ∈ generationDispatch w lb B stencil nw₂.1 nw₂.2,
        c₁ ≠ c₂ → f ^ 2 ≤ dist2 ⟨c₁.1.posX, c₁.1.posZ⟩ ⟨c₂.1.posX, c₂.1.posZ⟩ := by
  intro c₁ hc₁ c₂ hc₂ hne
  obtain ⟨wx₁, wy₁, l₁, _, _, hl₁, rfl⟩ := generationDispatch_mem hc₁
  obtain ⟨wx₂, wy₂, l₂, _, _, hl₂, rfl⟩ := generationDispatch_mem hc₂
  have htriple : (wx₁, wy₁, l₁) ≠ (wx₂, wy₂, l₂) := by
    intro hcon
    simp only [Prod.mk.injEq] at hcon
    obtain ⟨e1, e2, e3⟩ := hcon
    apply hne
    rw [e1, e2, e3]
  have h1x : (genCandidate w lb B (stencil.getD l₁ ⟨0, 0⟩) wx₁ wy₁).1.posX
      = lb.x + wx₁ * B.x + (stencil.getD l₁ ⟨0, 0⟩).x := rfl
  have h1z : (genCandidate w lb B (stencil.getD l₁ ⟨0, 0⟩) wx₁ wy₁).1.posZ
      = lb.y + wy₁ * B.y + (stencil.getD l₁ ⟨0, 0⟩).y := rfl
  have h2x : (genCandidate w lb B (stencil.getD l₂ ⟨0, 0⟩) wx₂ wy₂).1.posX
      = lb.x + wx₂ * B.x + (stencil.getD l₂ ⟨0, 0⟩).x := rfl
  have h2z : (genCandidate w lb B (stencil.getD l₂ ⟨0, 0⟩) wx₂ wy₂).1.posZ
      = lb.y + wy₂ * B.y + (stencil.getD l₂ ⟨0, 0⟩).y := rfl
  rw [h1x, h1z, h2x, h2z]
  exact lattice_sep stencil B f htor hrange hfx hfy hf lb wx₁ wy₁ l₁ wx₂ wy₂ l₂
    hl₁ hl₂ htriple

theorem toroidalOk_singleton : toroidalOk [(⟨0, 0⟩ : Vec2)] ⟨1, 1⟩ 1 := by
  intro i hi j hj d hd hc
  rw [List.length_singleton, List.mem_range] at hi hj
  obtain rfl : i = 0 := by omega
  obtain rfl : j = 0 := by omega
  have hd0 : d ≠ (0, 0) := by
    rcases hc with h | h
    · exact absurd rfl h
    · exact h
  fin_cases hd <;>
    first
      | exact absurd rfl hd0
      | (simp only [List.getD_cons_zero, dist2, shiftBy]; norm_num)

theorem stencilInRange_singleton : stencilInRange [(⟨0, 0⟩ : Vec2)] ⟨1, 1⟩ := by
  intro p hp
  rw [List.mem_singleton] at hp
  rw [hp]
  norm_num

/-- C7 counterexample run: with footprint `7/5` and cell side `1` (the
spec couples them by `side = footprint/√2`; `(7/5)² ≤ 2·1²` holds, i.e.
the cell diagonal is at least the footprint as the spec intends), the
candidates `(1.99, 0.5)` and `(3.3, 0.5)` fall in grid cells `1` and `3`
of an 8×8 grid.  The cells are outside each other's 3×3 neighborhood, so
the second dart is accepted although the distance is `1.31 < 7/5`: the
produced distribution violates the claimed toroidal separation. -/
theorem C7_disk_toroidal_counterexample :
    (0 : ℚ) < 7 / 5
    ∧ (0 : ℚ) < 1
    ∧ ((7 : ℚ) / 5) ^ 2 ≤ 2 * 1 ^ 2
    ∧ (∀ c ∈ [(⟨199 / 100, 1 / 2⟩ : Vec2), ⟨33 / 10, 1 / 2⟩], inTile 1 8 8 c)
    ∧ ¬ diskSeparationProp (7 / 5) 1 8 8
        (diskRun (7 / 5) 1 8 8 [⟨199 / 100, 1 / 2⟩, ⟨33 / 10, 1 / 2⟩]) := by
  refine ⟨by norm_num, by norm_num, by norm_num, ?_, ?_⟩
  · intro c hc
    fin_cases hc <;> (rw [inTile]; norm_num)
  · have hc1 : cellOf 1 (199 / 100) = 1 := by
      rw [cellOf]
      norm_num
    have hc2 : cellOf 1 (33 / 10) = 3 := by
      rw [cellOf]
      norm_num
    have hnb : neighborCells 8 8 1 ⟨199 / 100, 1 / 2⟩ ⟨33 / 10, 1 / 2⟩ = false := by
      simp only [neighborCells]
      rw [hc1, hc2, show nbhd1 8 1 3 = false from by decide, Bool.false_and]
    have hcol : collides (7 / 5) 1 8 8 [⟨199 / 100, 1 / 2⟩] ⟨33 / 10, 1 / 2⟩ = false := by
      simp only [collides, List.any_cons, List.any_nil, Bool.or_false]
      rw [hnb, Bool.false_and]
    have hrun : diskRun (7 / 5) 1 8 8 [⟨199 / 100, 1 / 2⟩, ⟨33 / 10, 1 / 2⟩]
        = [⟨33 / 10, 1 / 2⟩, ⟨199 / 100, 1 / 2⟩] := by
      rw [diskRun, List.foldl_cons, List.foldl_cons, List.foldl_nil]
      rw [show diskStep (7 / 5) 1 8 8 [] ⟨199 / 100, 1 / 2⟩ = [⟨199 / 100, 1 / 2⟩] from rfl]
      rw [diskStep, hcol]
      rfl
    rw [hrun]
    intro hprop
    have hne : (⟨199 / 100, 1 / 2⟩ : Vec2) ≠ ⟨33 / 10, 1 / 2⟩ := by
      intro hcon
      rw [Vec2.mk.injEq] at hcon
      norm_num at hcon
    have hd : ((0, 0) : ℤ × ℤ) ∈ shifts9 := by decide
    have hsep := hprop.2 ⟨199 / 100, 1 / 2⟩ (by simp) ⟨33 / 10, 1 / 2⟩ (by simp)
      (0, 0) hd (Or.inl hne)
    rw [dist2, shiftBy] at hsep
    norm_num at hsep

/-- C10 counterexample: two GenerationKernel dispatches with identical
world scale, footprint and stencil but lower bounds `(0,0)` and `(1/2,0)`
produce candidates at horizontal distance `1/2 < footprint = 1`, although
the stencil satisfies every contract (toroidal separation, range, bounds
at least the footprint). -/
theorem C10_cross_dispatch_counterexample :
    toroidalOk [(⟨0, 0⟩ : Vec2)] ⟨1, 1⟩ 1
    ∧ stencilInRange [(⟨0, 0⟩ : Vec2)] ⟨1, 1⟩
    ∧ ((1 : ℚ) ≤ (1 : ℚ)) ∧ ((0 : ℚ) < 1)
    ∧ genCandidate ⟨1, 1, 1, fun _ => 0⟩ ⟨0, 0⟩ ⟨1, 1⟩ ⟨0, 0⟩ 0 0
        ∈ generationDispatch ⟨1, 1, 1, fun _ => 0⟩ ⟨0, 0⟩ ⟨1, 1⟩ [⟨0, 0⟩] 1 1
    ∧ genCandidate ⟨1, 1, 1, fun _ => 0⟩ ⟨1 / 2, 0⟩ ⟨1, 1⟩ ⟨0, 0⟩ 0 0
        ∈ generationDispatch ⟨1, 1, 1, fun _ => 0⟩ ⟨1 / 2, 0⟩ ⟨1, 1⟩ [⟨0, 0⟩] 1 1
    ∧ (genCandidate ⟨1, 1, 1, fun _ => 0⟩ ⟨0, 0⟩ ⟨1, 1⟩ ⟨0, 0⟩ 0 0).1
        ≠ (genCandidate ⟨1, 1, 1, fun _ => 0⟩ ⟨1 / 2, 0⟩ ⟨1, 1⟩ ⟨0, 0⟩ 0 0).1
    ∧ dist2
        ⟨(genCandidate ⟨1, 1, 1, fun _ => 0⟩ ⟨0, 0⟩ ⟨1, 1⟩ ⟨0, 0⟩ 0 0).1.posX,
         (genCandidate ⟨1, 1, 1, fun _ => 0⟩ ⟨0, 0⟩ ⟨1, 1⟩ ⟨0, 0⟩ 0 0).1.posZ⟩
        ⟨(genCandidate ⟨1, 1, 1, fun _ => 0⟩ ⟨1 / 2, 0⟩ ⟨1, 1⟩ ⟨0, 0⟩ 0 0).1.posX,
         (genCandidate ⟨1, 1, 1, fun _ => 0⟩ ⟨1 / 2, 0⟩ ⟨1, 1⟩ ⟨0, 0⟩ 0 0).1.posZ⟩
      < 1 ^ 2 := by
  refine ⟨toroidalOk_singleton, stencilInRange_singleton, le_rfl, by norm_num,
    ?_, ?_, ?_, ?_⟩
  · simp [generationDispatch]
  · simp [generationDispatch]
  · intro hcon
    simp only [genCandidate] at hcon
    rw [Candidate.mk.injEq] at hcon
    norm_num at hcon
  · simp only [genCandidate, dist2]
    norm_num

/-- C1: in every Result returned by `computePlacement`, any two elements A
and B with class index other than `u32::MAX` have their horizontal
positions (X and Z components; Y is sampled height and does not
participate) at distance at least the layer footprint, stated on squared
distances over ℚ.  The stencil hypotheses are the contract established by
DiskDistributionGenerator when the pipeline builds its stencil. -/
theorem C1_result_footprint_separation (hash : Vec2 → ℚ) (pipe : Pipeline)
    (w : WorldData) (layer : LayerData) (lb ub : Vec2) (sched : ℕ → List ℕ)
    (htor : toroidalOk pipe.stencil pipe.stencilBounds layer.footprint)
    (hrange : stencilInRange pipe.stencil pipe.stencilBounds)
    (hfx : layer.footprint ≤ pipe.stencilBounds.x)
    (hfy : layer.footprint ≤ pipe.stencilBounds.y)
    (hf : 0 < layer.footprint) :
    ∀ A ∈ (computePlacement hash pipe w layer lb ub sched).copyAllToHost,
      ∀ B ∈ (computePlacement hash pipe w layer lb ub sched).copyAllToHost,
        A.classIndex ≠ u32MAX → B.classIndex ≠ u32MAX → A ≠ B →
        layer.footprint ^ 2 ≤ dist2 ⟨A.posX, A.posZ⟩ ⟨B.posX, B.posZ⟩ :=
  computePlacement_separation hash pipe w layer lb ub sched htor hrange hfx hfy hf

/-- C1 witness: the separation theorem instantiated at a concrete pipeline
(singleton stencil, unit tile, unit footprint, unit region). -/
theorem C1_result_footprint_separation_witness :
    toroidalOk [(⟨0, 0⟩ : Vec2)] ⟨1, 1⟩ 1
    ∧ stencilInRange [(⟨0, 0⟩ : Vec2)] ⟨1, 1⟩
    ∧ ((1 : ℚ) ≤ 1)
    ∧ ((0 : ℚ) < 1)
    ∧ (∀ A ∈ (computePlacement (fun _ => 0) ⟨[⟨0, 0⟩], ⟨1, 1⟩⟩ ⟨1, 1, 1, fun _ => 0⟩
          ⟨1, [⟨fun _ => 1, 1⟩]⟩ ⟨0, 0⟩ ⟨1, 1⟩ (fun _ => [0])).copyAllToHost,
        ∀ B ∈ (computePlacement (fun _ => 0) ⟨[⟨0, 0⟩], ⟨1, 1⟩⟩ ⟨1, 1, 1, fun _ => 0⟩
          ⟨1, [⟨fun _ => 1, 1⟩]⟩ ⟨0, 0⟩ ⟨1, 1⟩ (fun _ => [0])).copyAllToHost,
          A.classIndex ≠ u32MAX → B.classIndex ≠ u32MAX → A ≠ B →
          (1 : ℚ) ^ 2 ≤ dist2 ⟨A.posX, A.posZ⟩ ⟨B.posX, B.posZ⟩) :=
  ⟨toroidalOk_singleton, stencilInRange_singleton, le_rfl, by norm_num,
    C1_result_footprint_separation (fun _ => 0) ⟨[⟨0, 0⟩], ⟨1, 1⟩⟩ ⟨1, 1, 1, fun _ => 0⟩
      ⟨1, [⟨fun _ => 1, 1⟩]⟩ ⟨0, 0⟩ ⟨1, 1⟩ (fun _ => [0]) toroidalOk_singleton
      stencilInRange_singleton le_rfl le_rfl (by norm_num)⟩

theorem witness_ev_length :
    (evaluatedOf (fun _ => 0) ⟨[⟨0, 0⟩], ⟨1, 1⟩⟩ ⟨1, 1, 1, fun _ => 0⟩
      ⟨1, [⟨fun _ => 1, 1⟩]⟩ ⟨0, 0⟩ ⟨1, 1⟩).length = 1 := by
  have hnw : calculateNumWorkGroups (⟨1, 1⟩ : Vec2) ⟨0, 0⟩ ⟨1, 1⟩ = (1, 1) := by
    simp only [calculateNumWorkGroups, Prod.mk.injEq]
    constructor <;> norm_num
  show ((generationDispatch ⟨1, 1, 1, fun _ => 0⟩ ⟨0, 0⟩ ⟨1, 1⟩ [⟨0, 0⟩]
      (calculateNumWorkGroups ⟨1, 1⟩ ⟨0, 0⟩ ⟨1, 1⟩).1
      (calculateNumWorkGroups ⟨1, 1⟩ ⟨0, 0⟩ ⟨1, 1⟩).2).map
      (evaluateCandidate (fun _ => 0) ⟨0, 0⟩ ⟨1, 1⟩ [⟨fun _ => 1, 1⟩])).length = 1
  rw [List.length_map, hnw, generationDispatch_length]
  rfl

theorem witness_chunks :
    List.range (chunks64 (evaluatedOf (fun _ => 0) ⟨[⟨0, 0⟩], ⟨1, 1⟩⟩
      ⟨1, 1, 1, fun _ => 0⟩ ⟨1, [⟨fun _ => 1, 1⟩]⟩ ⟨0, 0⟩ ⟨1, 1⟩)).length = [0] := by
  obtain ⟨a, ha⟩ := List.length_eq_one.mp witness_ev_length
  rw [chunks64, ha]
  rfl

/-- One unfolding step of `chunksGo` on a nonempty list with nonzero fuel. -/
theorem chunksGo_cons_eq (k fuel : ℕ) (a : α) (as : List α) :
    chunksGo k (fuel + 1) (a :: as)
      = (a :: as).take k :: chunksGo k fuel ((a :: as).drop k) := rfl

theorem chunksGo_nil_eq (k : ℕ) : ∀ fuel, chunksGo k fuel ([] : List α) = []
  | 0 => rfl
  | _ + 1 => rfl

/-- A candidate array of exactly two workgroups of 64: its chunks are the
first and second halves. -/
theorem chunks64_two (l : List α) (h : l.length = 128) :
    chunks64 l = [l.take 64, l.drop 64] := by
  rcases l with _ | ⟨a, as⟩
  · simp at h
  · rw [chunks64, h]
    have h1 : chunksGo 64 128 (a :: as)
        = (a :: as).take 64 :: chunksGo 64 127 ((a :: as).drop 64) :=
      chunksGo_cons_eq 64 127 a as
    rw [h1]
    have hd : ((a :: as).drop 64).length = 64 := by
      rw [List.length_drop, h]
    rcases hdrop : (a :: as).drop 64 with _ | ⟨b, bs⟩
    · rw [hdrop] at hd
      simp at hd
    · rw [hdrop] at hd
      have h2 : chunksGo 64 127 (b :: bs)
          = (b :: bs).take 64 :: chunksGo 64 126 ((b :: bs).drop 64) :=
        chunksGo_cons_eq 64 126 b bs
      rw [h2]
      have h3 : (b :: bs).drop 64 = [] := by
        rw [List.drop_eq_nil_iff, hd]
      rw [h3, chunksGo_nil_eq, List.take_of_length_le (le_of_eq hd)]

/-- When every element is valid, a workgroup writes the consecutive indices
starting at its base. -/
theorem assignGroup_all_valid (valid : α → Bool) :
    ∀ (l : List α) (b : ℕ), (∀ a ∈ l, valid a = true) →
      assignGroup valid b l = List.range' b l.length
  | [], _, _ => rfl
  | a :: as, b, h => by
    rw [assignGroup, if_pos (h a (List.mem_cons_self a as)),
      assignGroup_all_valid valid as (b + 1) (fun x hx => h x (List.mem_cons_of_mem a hx)),
      List.length_cons, List.range'_succ]

/-- Index buffers of a two-workgroup, all-valid dispatch for the two
completion orders: the completion order decides which half receives the
lower block of indices. -/
theorem indexation_two_all_valid (valid : α → Bool) (l : List α)
    (hlen : l.length = 128) (hv : ∀ a ∈ l, valid a = true) :
    indexation valid [0, 1] l = List.range' 0 64 ++ List.range' 64 64
    ∧ indexation valid [1, 0] l = List.range' 64 64 ++ List.range' 0 64 := by
  have hc := chunks64_two l hlen
  have hA : (l.take 64).length = 64 := by
    rw [List.length_take, hlen]
    omega
  have hB : (l.drop 64).length = 64 := by
    rw [List.length_drop, hlen]
  have hvA : ∀ a ∈ l.take 64, valid a = true := fun a ha => hv a (List.mem_of_mem_take ha)
  have hvB : ∀ a ∈ l.drop 64, valid a = true := fun a ha => hv a (List.mem_of_mem_drop ha)
  have ht0 : groupTotal valid [l.take 64, l.drop 64] 0 = 64 := by
    rw [groupTotal]
    simp only [List.getD_cons_zero]
    rw [List.countP_eq_length.mpr hvA, hA]
  have ht1 : groupTotal valid [l.take 64, l.drop 64] 1 = 64 := by
    rw [groupTotal]
    simp only [List.getD_cons_succ, List.getD_cons_zero]
    rw [List.countP_eq_length.mpr hvB, hB]
  have hr2 : List.range 2 = [0, 1] := by decide
  constructor
  · rw [indexation, hc]
    have hb0 : baseOf valid [l.take 64, l.drop 64] [0, 1] 0 = 0 := by
      rw [baseOf]
      simp
    have hb1 : baseOf valid [l.take 64, l.drop 64] [0, 1] 1 = 64 := by
      rw [baseOf]
      simp [List.takeWhile_cons, ht0]
    simp only [List.length_cons, List.length_nil, hr2, List.map_cons, List.map_nil,
      List.flatten_cons, List.flatten_nil, List.append_nil, List.getD_cons_zero,
      List.getD_cons_succ]
    rw [hb0, hb1, assignGroup_all_valid valid _ 0 hvA, assignGroup_all_valid valid _ 64 hvB,
      hA, hB]
  · rw [indexation, hc]
    have hb0 : baseOf valid [l.take 64, l.drop 64] [1, 0] 0 = 64 := by
      rw [baseOf]
      simp [List.takeWhile_cons, ht1]
    have hb1 : baseOf valid [l.take 64, l.drop 64] [1, 0] 1 = 0 := by
      rw [baseOf]
      simp [List.takeWhile_cons]
    simp only [List.length_cons, List.length_nil, hr2, List.map_cons, List.map_nil,
      List.flatten_cons, List.flatten_nil, List.append_nil, List.getD_cons_zero,
      List.getD_cons_succ]
    rw [hb0, hb1, assignGroup_all_valid valid _ 64 hvA, assignGroup_all_valid valid _ 0 hvB,
      hA, hB]

/-- The positions in a zip pair come from a common index. -/
theorem zip_pair_src (l : List α) (il : List ℕ) :
    ∀ p ∈ l.zip il, ∃ j : ℕ, l[j]? = some p.1 ∧ il[j]? = some p.2 := by
  intro p hp
  rw [List.mem_iff_getElem?] at hp
  obtain ⟨j, hj⟩ := hp
  rw [List.getElem?_zip_eq_some] at hj
  exact ⟨j, hj.1, hj.2⟩

/-- Pointwise content of a scatter over a 128-entry buffer whose index
list realizes the position map `σ`: slot `σ j` receives candidate `j`. -/
theorem scatter_of_fun (l : List α) (idx : List ℕ) (dflt : α)
    (hlen : l.length = 128) (hidxlen : idx.length = 128) (σ : ℕ → ℕ)
    (hσ : ∀ j, j < 128 → idx[j]? = some (σ j))
    (hinj : ∀ j k, j < 128 → k < 128 → σ j = σ k → j = k) :
    ∀ k j, k < 128 → j < 128 → σ j = k →
      (scatterWrites l idx (List.replicate 128 dflt))[k]? = l[j]? := by
  intro k j hk hj hσj
  have hjl : j < l.length := by omega
  have hlj : l[j]? = some (l[j]) := List.getElem?_eq_getElem hjl
  have hM : u32MAX = 4294967295 := rfl
  have hfound : ((l.zip idx).foldl scatterStep (List.replicate 128 dflt))[k]?
      = some (l[j]) := by
    apply scatterFold_get_found
    · rw [List.length_replicate]
      exact hk
    · omega
    · rw [List.mem_iff_getElem?]
      refine ⟨j, ?_⟩
      rw [List.getElem?_zip_eq_some]
      refine ⟨hlj, ?_⟩
      rw [hσ j hj, hσj]
    · intro p hp hpk
      obtain ⟨j₂, hp1, hp2⟩ := zip_pair_src l idx p hp
      have hj₂ : j₂ < 128 := by
        have : j₂ < idx.length := by
          rcases List.getElem?_eq_some.mp hp2 with ⟨h, _⟩
          exact h
        omega
      have hσj₂ : p.2 = σ j₂ := by
        have := hσ j₂ hj₂
        rw [this] at hp2
        exact (Option.some.injEq _ _).mp hp2.symm
      have hjj : j₂ = j := hinj j₂ j hj₂ hj (by rw [← hσj₂, hpk, hσj])
      rw [hjj] at hp1
      rw [hlj] at hp1
      exact (Option.some.injEq _ _).mp hp1.symm
  rw [scatterWrites, hfound, hlj]

/-- Scatter of an all-valid two-workgroup dispatch when workgroup 0 won the
atomic race: the output is the candidate array itself. -/
theorem scatter_keep (l : List α) (dflt : α) (hlen : l.length = 128) :
    (scatterWrites l (List.range' 0 64 ++ List.range' 64 64)
      (List.replicate 128 dflt)).take 128 = l := by
  have hidxlen : (List.range' 0 64 ++ List.range' 64 64).length = 128 := by
    rw [List.length_append, List.length_range', List.length_range']
  have hσ : ∀ j, j < 128 → (List.range' 0 64 ++ List.range' 64 64)[j]? = some j := by
    intro j hj
    rw [List.getElem?_append, List.length_range']
    by_cases hj64 : j < 64
    · rw [if_pos hj64, List.range'_eq_map_range, List.getElem?_map, List.getElem?_range hj64]
      simp
    · rw [if_neg hj64, List.range'_eq_map_range, List.getElem?_map,
        List.getElem?_range (by omega : j - 64 < 64)]
      show some (64 + (j - 64)) = some j
      congr 1
      omega
  have hp := scatter_of_fun l (List.range' 0 64 ++ List.range' 64 64) dflt hlen hidxlen
    (fun j => j) hσ (fun j k _ _ h => h)
  apply List.ext_getElem?
  intro k
  rw [List.getElem?_take]
  by_cases hk : k < 128
  · rw [if_pos hk]
    exact hp k k hk hk rfl
  · rw [if_neg hk]
    exact (List.getElem?_eq_none (by omega)).symm

/-- Scatter of an all-valid two-workgroup dispatch when workgroup 1 won the
atomic race: the two halves of the candidate array are exchanged. -/
theorem scatter_swap (l : List α) (dflt : α) (hlen : l.length = 128) :
    (scatterWrites l (List.range' 64 64 ++ List.range' 0 64)
      (List.replicate 128 dflt)).take 128 = l.drop 64 ++ l.take 64 := by
  have hidxlen : (List.range' 64 64 ++ List.range' 0 64).length = 128 := by
    rw [List.length_append, List.length_range', List.length_range']
  have hσ : ∀ j, j < 128 → (List.range' 64 64 ++ List.range' 0 64)[j]?
      = some (if j < 64 then 64 + j else j - 64) := by
    intro j hj
    rw [List.getElem?_append, List.length_range']
    by_cases hj64 : j < 64
    · rw [if_pos hj64, if_pos hj64, List.range'_eq_map_range, List.getElem?_map,
        List.getElem?_range hj64]
      rfl
    · rw [if_neg hj64, if_neg hj64, List.range'_eq_map_range, List.getElem?_map,
        List.getElem?_range (by omega : j - 64 < 64)]
      simp
  have hinj : ∀ j k, j < 128 → k < 128 →
      (if j < 64 then 64 + j else j - 64) = (if k < 64 then 64 + k else k - 64) → j = k := by
    intro j k hj hk h
    split_ifs at h <;> omega
  have hp := scatter_of_fun l (List.range' 64 64 ++ List.range' 0 64) dflt hlen hidxlen
    (fun j => if j < 64 then 64 + j else j - 64) hσ hinj
  have hdl : (l.drop 64).length = 64 := by
    rw [List.length_drop, hlen]
  apply List.ext_getElem?
  intro k
  rw [List.getElem?_take]
  by_cases hk : k < 128
  · rw [if_pos hk]
    by_cases hk64 : k < 64
    · rw [hp k (64 + k) hk (by omega)
        (by show (if 64 + k < 64 then 64 + (64 + k) else 64 + k - 64) = k
            rw [if_neg (by omega : ¬(64 + k < 64))]
            omega)]
      rw [List.getElem?_append, hdl, if_pos hk64, List.getElem?_drop]
    · rw [hp k (k - 64) hk (by omega)
        (by show (if k - 64 < 64 then 64 + (k - 64) else k - 64 - 64) = k
            rw [if_pos (by omega : k - 64 < 64)]
            omega)]
      rw [List.getElem?_append, hdl, if_neg hk64, List.getElem?_take,
        if_pos (by omega : k - 64 < 64)]
  · rw [if_neg hk]
    symm
    apply List.getElem?_eq_none
    rw [List.length_append, hdl, List.length_take, hlen]
    omega

/-- Compaction of an all-valid 128-candidate array: the completion order of
the two workgroups decides whether the halves keep their places or are
exchanged. -/
theorem compact_two_orders (valid : α → Bool) (dflt : α) (l : List α)
    (hlen : l.length = 128) (hv : ∀ a ∈ l, valid a = true) :
    compact valid [0, 1] dflt l = l
    ∧ compact valid [1, 0] dflt l = l.drop 64 ++ l.take 64 := by
  have hcount : indexationCount valid l = 128 := by
    rw [indexationCount_eq, List.countP_eq_length.mpr hv, hlen]
  obtain ⟨h1, h2⟩ := indexation_two_all_valid valid l hlen hv
  constructor
  · rw [compact, h1, hcount, scatter_keep l dflt hlen]
  · rw [compact, h2, hcount, scatter_swap l dflt hlen]

theorem flatMap_one_eq_map {β : Type} (f : α → β) :
    ∀ l : List α, (l.flatMap fun x => [f x]) = l.map f
  | [] => rfl
  | a :: as => by
    rw [List.flatMap_cons, flatMap_one_eq_map f as, List.map_cons]
    rfl

/-- A generation dispatch with a single workgroup row and a singleton
stencil is the row of per-workgroup candidates. -/
theorem genDispatch_single_row (w : WorldData) (lb B p : Vec2) (nwx : ℕ) :
    generationDispatch w lb B [p] nwx 1
      = (List.range nwx).map (fun wx => genCandidate w lb B p wx 0) := by
  rw [generationDispatch]
  have h1 : ∀ wx : ℕ, ((List.range 1).flatMap fun wy =>
      (List.range ([p] : List Vec2).length).map fun l =>
        genCandidate w lb B (([p] : List Vec2).getD l ⟨0, 0⟩) wx wy)
      = [genCandidate w lb B p wx 0] := fun wx => rfl
  simp only [h1]
  exact flatMap_one_eq_map (fun wx => genCandidate w lb B p wx 0) (List.range nwx)

/-- The evaluated candidate array of the C2 counterexample configuration:
one candidate per workgroup column `wx < 128`. -/
theorem cex_ev_eq :
    evaluatedOf (fun _ => 0) ⟨[⟨0, 0⟩], ⟨1, 1⟩⟩ ⟨1, 1, 1, fun _ => 0⟩
        ⟨1, [⟨fun _ => 1, 1⟩]⟩ ⟨0, 0⟩ ⟨128, 1⟩
      = (List.range 128).map (fun wx =>
          evaluateCandidate (fun _ => 0) ⟨0, 0⟩ ⟨128, 1⟩ [⟨fun _ => 1, 1⟩]
            (genCandidate ⟨1, 1, 1, fun _ => 0⟩ ⟨0, 0⟩ ⟨1, 1⟩ ⟨0, 0⟩ wx 0)) := by
  have hnw : calculateNumWorkGroups ⟨1, 1⟩ ⟨0, 0⟩ ⟨128, 1⟩ = (128, 1) := by
    simp only [calculateNumWorkGroups, Prod.mk.injEq]
    constructor
    · show ⌈((128 : ℚ) - 0) / 1⌉.toNat = 128
      norm_num
      rfl
    · show ⌈((1 : ℚ) - 0) / 1⌉.toNat = 1
      norm_num
  show ((generationDispatch ⟨1, 1, 1, fun _ => 0⟩ ⟨0, 0⟩ ⟨1, 1⟩ [⟨0, 0⟩]
      (calculateNumWorkGroups ⟨1, 1⟩ ⟨0, 0⟩ ⟨128, 1⟩).1
      (calculateNumWorkGroups ⟨1, 1⟩ ⟨0, 0⟩ ⟨128, 1⟩).2).map
      (evaluateCandidate (fun _ => 0) ⟨0, 0⟩ ⟨128, 1⟩ [⟨fun _ => 1, 1⟩])) = _
  rw [hnw]
  show ((generationDispatch ⟨1, 1, 1, fun _ => 0⟩ ⟨0, 0⟩ ⟨1, 1⟩ [⟨0, 0⟩] 128 1).map
      (evaluateCandidate (fun _ => 0) ⟨0, 0⟩ ⟨128, 1⟩ [⟨fun _ => 1, 1⟩])) = _
  rw [genDispatch_single_row, List.map_map]
  rfl

/-- Every candidate of the C2 counterexample configuration is in the
region and receives class `0`. -/
theorem cex_classIndex (wx : ℕ) (h : wx < 128) :
    (evaluateCandidate (fun _ => 0) ⟨0, 0⟩ ⟨128, 1⟩ [⟨fun _ => 1, 1⟩]
      (genCandidate ⟨1, 1, 1, fun _ => 0⟩ ⟨0, 0⟩ ⟨1, 1⟩ ⟨0, 0⟩ wx 0)).classIndex = 0 := by
  have hq : (wx : ℚ) < 128 := by exact_mod_cast h
  have hq0 : (0 : ℚ) ≤ (wx : ℚ) := Nat.cast_nonneg wx
  have hreg : inRegion ⟨0, 0⟩ ⟨128, 1⟩
      ⟨(genCandidate ⟨1, 1, 1, fun _ => 0⟩ ⟨0, 0⟩ ⟨1, 1⟩ ⟨0, 0⟩ wx 0).1.posX,
       (genCandidate ⟨1, 1, 1, fun _ => 0⟩ ⟨0, 0⟩ ⟨1, 1⟩ ⟨0, 0⟩ wx 0).1.posZ⟩ := by
    rw [inRegion]
    simp only [genCandidate]
    refine ⟨by linarith, by linarith, by norm_num, by norm_num⟩
  rw [evaluateCandidate, if_pos hreg]
  show evalClassesGo ((fun _ => (0 : ℚ))
      ((genCandidate ⟨1, 1, 1, fun _ => 0⟩ ⟨0, 0⟩ ⟨1, 1⟩ ⟨0, 0⟩ wx 0).2))
      ((genCandidate ⟨1, 1, 1, fun _ => 0⟩ ⟨0, 0⟩ ⟨1, 1⟩ ⟨0, 0⟩ wx 0).2)
      0 0 [⟨fun _ => 1, 1⟩] = 0
  simp only [evalClassesGo]
  rw [if_pos]
  norm_num

/-- The horizontal X position of the `wx`-th candidate of the C2
counterexample configuration. -/
theorem cex_posX (wx : ℕ) :
    (evaluateCandidate (fun _ => 0) ⟨0, 0⟩ ⟨128, 1⟩ [⟨fun _ => 1, 1⟩]
      (genCandidate ⟨1, 1, 1, fun _ => 0⟩ ⟨0, 0⟩ ⟨1, 1⟩ ⟨0, 0⟩ wx 0)).posX = (wx : ℚ) := by
  rw [(evaluateCandidate_posX (fun _ => 0) ⟨0, 0⟩ ⟨128, 1⟩ [⟨fun _ => 1, 1⟩] _).1]
  simp only [genCandidate]
  ring

theorem cex_ev_length :
    (evaluatedOf (fun _ => 0) ⟨[⟨0, 0⟩], ⟨1, 1⟩⟩ ⟨1, 1, 1, fun _ => 0⟩
      ⟨1, [⟨fun _ => 1, 1⟩]⟩ ⟨0, 0⟩ ⟨128, 1⟩).length = 128 := by
  rw [cex_ev_eq, List.length_map, List.length_range]

theorem cex_ev_valid :
    ∀ a ∈ evaluatedOf (fun _ => 0) ⟨[⟨0, 0⟩], ⟨1, 1⟩⟩ ⟨1, 1, 1, fun _ => 0⟩
        ⟨1, [⟨fun _ => 1, 1⟩]⟩ ⟨0, 0⟩ ⟨128, 1⟩, classValid 0 a = true := by
  rw [cex_ev_eq]
  intro a ha
  rw [List.mem_map] at ha
  obtain ⟨wx, hwx, rfl⟩ := ha
  rw [List.mem_range] at hwx
  show ((evaluateCandidate (fun _ => 0) ⟨0, 0⟩ ⟨128, 1⟩ [⟨fun _ => 1, 1⟩]
    (genCandidate ⟨1, 1, 1, fun _ => 0⟩ ⟨0, 0⟩ ⟨1, 1⟩ ⟨0, 0⟩ wx 0)).classIndex == 0) = true
  rw [cex_classIndex wx hwx]
  rfl

/-- Exchanging the two 64-candidate halves changes the array: the heads
are the candidates of workgroup columns `0` and `64`, whose X positions
differ. -/
theorem cex_ev_ne :
    evaluatedOf (fun _ => 0) ⟨[⟨0, 0⟩], ⟨1, 1⟩⟩ ⟨1, 1, 1, fun _ => 0⟩
        ⟨1, [⟨fun _ => 1, 1⟩]⟩ ⟨0, 0⟩ ⟨128, 1⟩
      ≠ (evaluatedOf (fun _ => 0) ⟨[⟨0, 0⟩], ⟨1, 1⟩⟩ ⟨1, 1, 1, fun _ => 0⟩
          ⟨1, [⟨fun _ => 1, 1⟩]⟩ ⟨0, 0⟩ ⟨128, 1⟩).drop 64
        ++ (evaluatedOf (fun _ => 0) ⟨[⟨0, 0⟩], ⟨1, 1⟩⟩ ⟨1, 1, 1, fun _ => 0⟩
          ⟨1, [⟨fun _ => 1, 1⟩]⟩ ⟨0, 0⟩ ⟨128, 1⟩).take 64 := by
  intro hcon
  have h0 : (evaluatedOf (fun _ => 0) ⟨[⟨0, 0⟩], ⟨1, 1⟩⟩ ⟨1, 1, 1, fun _ => 0⟩
      ⟨1, [⟨fun _ => 1, 1⟩]⟩ ⟨0, 0⟩ ⟨128, 1⟩)[0]?
      = some (evaluateCandidate (fun _ => 0) ⟨0, 0⟩ ⟨128, 1⟩ [⟨fun _ => 1, 1⟩]
        (genCandidate ⟨1, 1, 1, fun _ => 0⟩ ⟨0, 0⟩ ⟨1, 1⟩ ⟨0, 0⟩ 0 0)) := by
    rw [cex_ev_eq, List.getElem?_map, List.getElem?_range (by omega : (0 : ℕ) < 128)]
    rfl
  have h64 : (evaluatedOf (fun _ => 0) ⟨[⟨0, 0⟩], ⟨1, 1⟩⟩ ⟨1, 1, 1, fun _ => 0⟩
      ⟨1, [⟨fun _ => 1, 1⟩]⟩ ⟨0, 0⟩ ⟨128, 1⟩)[64]?
      = some (evaluateCandidate (fun _ => 0) ⟨0, 0⟩ ⟨128, 1⟩ [⟨fun _ => 1, 1⟩]
        (genCandidate ⟨1, 1, 1, fun _ => 0⟩ ⟨0, 0⟩ ⟨1, 1⟩ ⟨0, 0⟩ 64 0)) := by
    rw [cex_ev_eq, List.getElem?_map, List.getElem?_range (by omega : (64 : ℕ) < 128)]
    rfl
  have hr : ((evaluatedOf (fun _ => 0) ⟨[⟨0, 0⟩], ⟨1, 1⟩⟩ ⟨1, 1, 1, fun _ => 0⟩
        ⟨1, [⟨fun _ => 1, 1⟩]⟩ ⟨0, 0⟩ ⟨128, 1⟩).drop 64
      ++ (evaluatedOf (fun _ => 0) ⟨[⟨0, 0⟩], ⟨1, 1⟩⟩ ⟨1, 1, 1, fun _ => 0⟩
        ⟨1, [⟨fun _ => 1, 1⟩]⟩ ⟨0, 0⟩ ⟨128, 1⟩).take 64)[0]?
      = some (evaluateCandidate (fun _ => 0) ⟨0, 0⟩ ⟨128, 1⟩ [⟨fun _ => 1, 1⟩]
        (genCandidate ⟨1, 1, 1, fun _ => 0⟩ ⟨0, 0⟩ ⟨1, 1⟩ ⟨0, 0⟩ 64 0)) := by
    rw [List.getElem?_append, List.length_drop, cex_ev_length,
      if_pos (by omega : (0 : ℕ) < 128 - 64), List.getElem?_drop]
    exact h64
  rw [hcon, hr] at h0
  have hx := congrArg Candidate.posX (Option.some.inj h0)
  rw [cex_posX 64, cex_posX 0] at hx
  norm_num at hx

/-- C2: counterexample to the claim that identical inputs (world data,
layer data, bounds, stencil) give bitwise-identical Results.  The inputs
of the two `computePlacement` calls are identical and the stencil obeys
the toroidal contract; the calls differ only in the workgroup completion
order of the compaction rounds — scheduler nondeterminism that is no
input of the claim — and both orders are valid (permutations of the
workgroup ids).  The region spans 128 stencil tiles, so the 128 evaluated
candidates occupy two indexation workgroups; the atomic race between them
decides which half of the output comes first, and the two Results differ
bitwise (the element multiset is the same, as the amended theorem
proves). -/
theorem C2_pipeline_determinism_counterexample :
    toroidalOk [(⟨0, 0⟩ : Vec2)] ⟨1, 1⟩ 1
    ∧ stencilInRange [(⟨0, 0⟩ : Vec2)] ⟨1, 1⟩
    ∧ (∀ i : ℕ, (([0, 1] : List ℕ)).Perm
        (List.range (chunks64 (evaluatedOf (fun _ => 0) ⟨[⟨0, 0⟩], ⟨1, 1⟩⟩
          ⟨1, 1, 1, fun _ => 0⟩ ⟨1, [⟨fun _ => 1, 1⟩]⟩ ⟨0, 0⟩ ⟨128, 1⟩)).length))
    ∧ (∀ i : ℕ, (([1, 0] : List ℕ)).Perm
        (List.range (chunks64 (evaluatedOf (fun _ => 0) ⟨[⟨0, 0⟩], ⟨1, 1⟩⟩
          ⟨1, 1, 1, fun _ => 0⟩ ⟨1, [⟨fun _ => 1, 1⟩]⟩ ⟨0, 0⟩ ⟨128, 1⟩)).length))
    ∧ (evaluatedOf (fun _ => 0) ⟨[⟨0, 0⟩], ⟨1, 1⟩⟩ ⟨1, 1, 1, fun _ => 0⟩
        ⟨1, [⟨fun _ => 1, 1⟩]⟩ ⟨0, 0⟩ ⟨128, 1⟩).length ≤ u32MAX
    ∧ computePlacement (fun _ => 0) ⟨[⟨0, 0⟩], ⟨1, 1⟩⟩ ⟨1, 1, 1, fun _ => 0⟩
        ⟨1, [⟨fun _ => 1, 1⟩]⟩ ⟨0, 0⟩ ⟨128, 1⟩ (fun _ => [0, 1])
      ≠ computePlacement (fun _ => 0) ⟨[⟨0, 0⟩], ⟨1, 1⟩⟩ ⟨1, 1, 1, fun _ => 0⟩
        ⟨1, [⟨fun _ => 1, 1⟩]⟩ ⟨0, 0⟩ ⟨128, 1⟩ (fun _ => [1, 0]) := by
  have hlen := cex_ev_length
  have hchunks : (chunks64 (evaluatedOf (fun _ => 0) ⟨[⟨0, 0⟩], ⟨1, 1⟩⟩
      ⟨1, 1, 1, fun _ => 0⟩ ⟨1, [⟨fun _ => 1, 1⟩]⟩ ⟨0, 0⟩ ⟨128, 1⟩)).length = 2 := by
    rw [chunks64_two _ hlen]
    rfl
  have hrange2 : List.range 2 = [0, 1] := by decide
  obtain ⟨hk1, hk2⟩ := compact_two_orders (classValid 0) defaultCandidate
    (evaluatedOf (fun _ => 0) ⟨[⟨0, 0⟩], ⟨1, 1⟩⟩ ⟨1, 1, 1, fun _ => 0⟩
      ⟨1, [⟨fun _ => 1, 1⟩]⟩ ⟨0, 0⟩ ⟨128, 1⟩) hlen cex_ev_valid
  refine ⟨toroidalOk_singleton, stencilInRange_singleton, ?_, ?_, ?_, ?_⟩
  · intro i
    rw [hchunks, hrange2]
  · intro i
    rw [hchunks, hrange2]
    exact List.Perm.swap 0 1 []
  · rw [hlen]
    decide
  · have hne : ¬((⟨128, 1⟩ : Vec2).x ≤ (⟨0, 0⟩ : Vec2).x
        ∨ (⟨128, 1⟩ : Vec2).y ≤ (⟨0, 0⟩ : Vec2).y) := by
      norm_num
    intro hcon
    have e1 : computePlacement (fun _ => 0) ⟨[⟨0, 0⟩], ⟨1, 1⟩⟩ ⟨1, 1, 1, fun _ => 0⟩
        ⟨1, [⟨fun _ => 1, 1⟩]⟩ ⟨0, 0⟩ ⟨128, 1⟩ (fun _ => [0, 1])
        = ⟨1, [evaluatedOf (fun _ => 0) ⟨[⟨0, 0⟩], ⟨1, 1⟩⟩ ⟨1, 1, 1, fun _ => 0⟩
            ⟨1, [⟨fun _ => 1, 1⟩]⟩ ⟨0, 0⟩ ⟨128, 1⟩]⟩ := by
      rw [computePlacement, if_neg hne]
      show (⟨1, [compact (classValid 0) [0, 1] defaultCandidate
          (evaluatedOf (fun _ => 0) ⟨[⟨0, 0⟩], ⟨1, 1⟩⟩ ⟨1, 1, 1, fun _ => 0⟩
            ⟨1, [⟨fun _ => 1, 1⟩]⟩ ⟨0, 0⟩ ⟨128, 1⟩)]⟩ : PlacementResult) = _
      rw [hk1]
    have e2 : computePlacement (fun _ => 0) ⟨[⟨0, 0⟩], ⟨1, 1⟩⟩ ⟨1, 1, 1, fun _ => 0⟩
        ⟨1, [⟨fun _ => 1, 1⟩]⟩ ⟨0, 0⟩ ⟨128, 1⟩ (fun _ => [1, 0])
        = ⟨1, [(evaluatedOf (fun _ => 0) ⟨[⟨0, 0⟩], ⟨1, 1⟩⟩ ⟨1, 1, 1, fun _ => 0⟩
              ⟨1, [⟨fun _ => 1, 1⟩]⟩ ⟨0, 0⟩ ⟨128, 1⟩).drop 64
            ++ (evaluatedOf (fun _ => 0) ⟨[⟨0, 0⟩], ⟨1, 1⟩⟩ ⟨1, 1, 1, fun _ => 0⟩
              ⟨1, [⟨fun _ => 1, 1⟩]⟩ ⟨0, 0⟩ ⟨128, 1⟩).take 64]⟩ := by
      rw [computePlacement, if_neg hne]
      show (⟨1, [compact (classValid 0) [1, 0] defaultCandidate
          (evaluatedOf (fun _ => 0) ⟨[⟨0, 0⟩], ⟨1, 1⟩⟩ ⟨1, 1, 1, fun _ => 0⟩
            ⟨1, [⟨fun _ => 1, 1⟩]⟩ ⟨0, 0⟩ ⟨128, 1⟩)]⟩ : PlacementResult) = _
      rw [hk2]
    rw [e1, e2, PlacementResult.mk.injEq] at hcon
    have h3 := hcon.2
    rw [List.cons.injEq] at h3
    exact cex_ev_ne h3.1

/-- C2 (amended): `computePlacement` invocations with identical inputs AND
identical workgroup completion orders return bitwise-identical Results —
the claim as stated, quantifying only over the inputs, is refuted by
`C2_pipeline_determinism_counterexample` — and for any two valid
completion orders the number of classes, the per-class element counts and
the element arrays as multisets coincide (only the byte layout of the
element array may differ). -/
theorem C2_pipeline_determinism_amended (hash : Vec2 → ℚ) (pipe : Pipeline) (w : WorldData)
    (layer : LayerData) (lb ub : Vec2) (s₁ s₂ : ℕ → List ℕ)
    (h₁ : ∀ i, (s₁ i).Perm
      (List.range (chunks64 (evaluatedOf hash pipe w layer lb ub)).length))
    (h₂ : ∀ i, (s₂ i).Perm
      (List.range (chunks64 (evaluatedOf hash pipe w layer lb ub)).length))
    (hlen : (evaluatedOf hash pipe w layer lb ub).length ≤ u32MAX) :
    (s₁ = s₂ → computePlacement hash pipe w layer lb ub s₁
        = computePlacement hash pipe w layer lb ub s₂)
      ∧ (computePlacement hash pipe w layer lb ub s₁).numClasses
          = (computePlacement hash pipe w layer lb ub s₂).numClasses
      ∧ (∀ i, (computePlacement hash pipe w layer lb ub s₁).getClassElementCount i
          = (computePlacement hash pipe w layer lb ub s₂).getClassElementCount i)
      ∧ ((computePlacement hash pipe w layer lb ub s₁).copyAllToHost).Perm
          ((computePlacement hash pipe w layer lb ub s₂).copyAllToHost) := by
  obtain ⟨ha, hb, hc⟩ :=
    computePlacement_order_invariance hash pipe w layer lb ub s₁ s₂ h₁ h₂ hlen
  exact ⟨fun h => by rw [h], ha, hb, hc⟩

/-- C2 witness: the amended determinism theorem instantiated at a concrete
pipeline call with the (only possible) completion order for its single
workgroup. -/
theorem C2_pipeline_determinism_amended_witness :
    (∀ i : ℕ, (([0] : List ℕ)).Perm
      (List.range (chunks64 (evaluatedOf (fun _ => 0) ⟨[⟨0, 0⟩], ⟨1, 1⟩⟩
        ⟨1, 1, 1, fun _ => 0⟩ ⟨1, [⟨fun _ => 1, 1⟩]⟩ ⟨0, 0⟩ ⟨1, 1⟩)).length))
    ∧ ((evaluatedOf (fun _ => 0) ⟨[⟨0, 0⟩], ⟨1, 1⟩⟩ ⟨1, 1, 1, fun _ => 0⟩
        ⟨1, [⟨fun _ => 1, 1⟩]⟩ ⟨0, 0⟩ ⟨1, 1⟩).length ≤ u32MAX)
    ∧ (((fun _ => [0]) : ℕ → List ℕ) = (fun _ => [0]) →
        computePlacement (fun _ => 0) ⟨[⟨0, 0⟩], ⟨1, 1⟩⟩ ⟨1, 1, 1, fun _ => 0⟩
            ⟨1, [⟨fun _ => 1, 1⟩]⟩ ⟨0, 0⟩ ⟨1, 1⟩ (fun _ => [0])
          = computePlacement (fun _ => 0) ⟨[⟨0, 0⟩], ⟨1, 1⟩⟩ ⟨1, 1, 1, fun _ => 0⟩
            ⟨1, [⟨fun _ => 1, 1⟩]⟩ ⟨0, 0⟩ ⟨1, 1⟩ (fun _ => [0]))
    ∧ (computePlacement (fun _ => 0) ⟨[⟨0, 0⟩], ⟨1, 1⟩⟩ ⟨1, 1, 1, fun _ => 0⟩
          ⟨1, [⟨fun _ => 1, 1⟩]⟩ ⟨0, 0⟩ ⟨1, 1⟩ (fun _ => [0])).numClasses
        = (computePlacement (fun _ => 0) ⟨[⟨0, 0⟩], ⟨1, 1⟩⟩ ⟨1, 1, 1, fun _ => 0⟩
          ⟨1, [⟨fun _ => 1, 1⟩]⟩ ⟨0, 0⟩ ⟨1, 1⟩ (fun _ => [0])).numClasses
    ∧ (∀ i, (computePlacement (fun _ => 0) ⟨[⟨0, 0⟩], ⟨1, 1⟩⟩ ⟨1, 1, 1, fun _ => 0⟩
          ⟨1, [⟨fun _ => 1, 1⟩]⟩ ⟨0, 0⟩ ⟨1, 1⟩ (fun _ => [0])).getClassElementCount i
        = (computePlacement (fun _ => 0) ⟨[⟨0, 0⟩], ⟨1, 1⟩⟩ ⟨1, 1, 1, fun _ => 0⟩
          ⟨1, [⟨fun _ => 1, 1⟩]⟩ ⟨0, 0⟩ ⟨1, 1⟩ (fun _ => [0])).getClassElementCount i)
    ∧ ((computePlacement (fun _ => 0) ⟨[⟨0, 0⟩], ⟨1, 1⟩⟩ ⟨1, 1, 1, fun _ => 0⟩
          ⟨1, [⟨fun _ => 1, 1⟩]⟩ ⟨0, 0⟩ ⟨1, 1⟩ (fun _ => [0])).copyAllToHost).Perm
        ((computePlacement (fun _ => 0) ⟨[⟨0, 0⟩], ⟨1, 1⟩⟩ ⟨1, 1, 1, fun _ => 0⟩
          ⟨1, [⟨fun _ => 1, 1⟩]⟩ ⟨0, 0⟩ ⟨1, 1⟩ (fun _ => [0])).copyAllToHost) := by
  have hp : ∀ i : ℕ, (([0] : List ℕ)).Perm
      (List.range (chunks64 (evaluatedOf (fun _ => 0) ⟨[⟨0, 0⟩], ⟨1, 1⟩⟩
        ⟨1, 1, 1, fun _ => 0⟩ ⟨1, [⟨fun _ => 1, 1⟩]⟩ ⟨0, 0⟩ ⟨1, 1⟩)).length) := by
    intro i
    rw [witness_chunks]
  have hlen1 : (evaluatedOf (fun _ => 0) ⟨[⟨0, 0⟩], ⟨1, 1⟩⟩ ⟨1, 1, 1, fun _ => 0⟩
      ⟨1, [⟨fun _ => 1, 1⟩]⟩ ⟨0, 0⟩ ⟨1, 1⟩).length ≤ u32MAX := by
    rw [witness_ev_length]
    decide
  obtain ⟨ha, hb, hc, hd⟩ := C2_pipeline_determinism_amended (fun _ => 0) ⟨[⟨0, 0⟩], ⟨1, 1⟩⟩
    ⟨1, 1, 1, fun _ => 0⟩ ⟨1, [⟨fun _ => 1, 1⟩]⟩ ⟨0, 0⟩ ⟨1, 1⟩
    (fun _ => [0]) (fun _ => [0]) hp hp hlen1
  exact ⟨hp, hlen1, ha, hb, hc, hd⟩

/-- C3: for a region with `upper > lower` on both axes, every element of
the Result has its horizontal position inside the region, lower bound
inclusive and upper bound exclusive. -/
theorem C3_elements_within_region (hash : Vec2 → ℚ) (pipe : Pipeline) (w : WorldData)
    (layer : LayerData) (lb ub : Vec2) (sched : ℕ → List ℕ)
    (hbounds : lb.x < ub.x ∧ lb.y < ub.y)
    (hsched : ∀ i, (sched i).Perm
      (List.range (chunks64 (evaluatedOf hash pipe w layer lb ub)).length))
    (hlen : (evaluatedOf hash pipe w layer lb ub).length ≤ u32MAX)
    (hcls : layer.densitymaps.length ≤ u32MAX) :
    ∀ A ∈ (computePlacement hash pipe w layer lb ub sched).copyAllToHost,
      lb.x ≤ A.posX ∧ A.posX < ub.x ∧ lb.y ≤ A.posZ ∧ A.posZ < ub.y := by
  intro A hA
  exact (computePlacement_in_bounds hash pipe w layer lb ub sched hsched hlen hcls A hA).1

/-- C3 witness: the region theorem instantiated at the unit region. -/
theorem C3_elements_within_region_witness :
    ((⟨0, 0⟩ : Vec2).x < (⟨1, 1⟩ : Vec2).x ∧ (⟨0, 0⟩ : Vec2).y < (⟨1, 1⟩ : Vec2).y)
    ∧ (∀ i : ℕ, (([0] : List ℕ)).Perm
      (List.range (chunks64 (evaluatedOf (fun _ => 0) ⟨[⟨0, 0⟩], ⟨1, 1⟩⟩
        ⟨1, 1, 1, fun _ => 0⟩ ⟨1, [⟨fun _ => 1, 1⟩]⟩ ⟨0, 0⟩ ⟨1, 1⟩)).length))
    ∧ ((evaluatedOf (fun _ => 0) ⟨[⟨0, 0⟩], ⟨1, 1⟩⟩ ⟨1, 1, 1, fun _ => 0⟩
        ⟨1, [⟨fun _ => 1, 1⟩]⟩ ⟨0, 0⟩ ⟨1, 1⟩).length ≤ u32MAX)
    ∧ ((1 : ℕ) ≤ u32MAX)
    ∧ (∀ A ∈ (computePlacement (fun _ => 0) ⟨[⟨0, 0⟩], ⟨1, 1⟩⟩ ⟨1, 1, 1, fun _ => 0⟩
          ⟨1, [⟨fun _ => 1, 1⟩]⟩ ⟨0, 0⟩ ⟨1, 1⟩ (fun _ => [0])).copyAllToHost,
        (⟨0, 0⟩ : Vec2).x ≤ A.posX ∧ A.posX < (⟨1, 1⟩ : Vec2).x
          ∧ (⟨0, 0⟩ : Vec2).y ≤ A.posZ ∧ A.posZ < (⟨1, 1⟩ : Vec2).y) := by
  have hp : ∀ i : ℕ, (([0] : List ℕ)).Perm
      (List.range (chunks64 (evaluatedOf (fun _ => 0) ⟨[⟨0, 0⟩], ⟨1, 1⟩⟩
        ⟨1, 1, 1, fun _ => 0⟩ ⟨1, [⟨fun _ => 1, 1⟩]⟩ ⟨0, 0⟩ ⟨1, 1⟩)).length) := by
    intro i
    rw [witness_chunks]
  have hlen1 : (evaluatedOf (fun _ => 0) ⟨[⟨0, 0⟩], ⟨1, 1⟩⟩ ⟨1, 1, 1, fun _ => 0⟩
      ⟨1, [⟨fun _ => 1, 1⟩]⟩ ⟨0, 0⟩ ⟨1, 1⟩).length ≤ u32MAX := by
    rw [witness_ev_length]
    decide
  have hb : ((⟨0, 0⟩ : Vec2).x < (⟨1, 1⟩ : Vec2).x ∧ (⟨0, 0⟩ : Vec2).y < (⟨1, 1⟩ : Vec2).y) := by
    norm_num
  exact ⟨hb, hp, hlen1, by decide,
    C3_elements_within_region (fun _ => 0) ⟨[⟨0, 0⟩], ⟨1, 1⟩⟩ ⟨1, 1, 1, fun _ => 0⟩
      ⟨1, [⟨fun _ => 1, 1⟩]⟩ ⟨0, 0⟩ ⟨1, 1⟩ (fun _ => [0]) hb hp hlen1 (by decide)⟩

/-- C4: a region with zero or negative extent on either axis yields an
empty Result — no elements, and `copyAllToHost` returns the empty list —
rather than an error (the model is a total function; spec §7 lists this as
a silent non-error). -/
theorem C4_negative_area_empty_result (hash : Vec2 → ℚ) (pipe : Pipeline)
    (w : WorldData) (layer : LayerData) (lb ub : Vec2) (sched : ℕ → List ℕ)
    (h : ub.x ≤ lb.x ∨ ub.y ≤ lb.y) :
    (computePlacement hash pipe w layer lb ub sched).copyAllToHost = []
      ∧ (computePlacement hash pipe w layer lb ub sched).getElementArrayLength = 0 :=
  ⟨(computePlacement_empty hash pipe w layer lb ub sched h).1,
    (computePlacement_empty hash pipe w layer lb ub sched h).2.1⟩

/-- C4 witness: the empty-result theorem at the region `(0,0)..(-1,-1)`. -/
theorem C4_negative_area_empty_result_witness :
    ((⟨-1, -1⟩ : Vec2).x ≤ (⟨0, 0⟩ : Vec2).x ∨ (⟨-1, -1⟩ : Vec2).y ≤ (⟨0, 0⟩ : Vec2).y)
    ∧ ((computePlacement (fun _ => 0) ⟨[⟨0, 0⟩], ⟨1, 1⟩⟩ ⟨1, 1, 1, fun _ => 0⟩
          ⟨1, [⟨fun _ => 1, 1⟩]⟩ ⟨0, 0⟩ ⟨-1, -1⟩ (fun _ => [0])).copyAllToHost = []
        ∧ (computePlacement (fun _ => 0) ⟨[⟨0, 0⟩], ⟨1, 1⟩⟩ ⟨1, 1, 1, fun _ => 0⟩
          ⟨1, [⟨fun _ => 1, 1⟩]⟩ ⟨0, 0⟩ ⟨-1, -1⟩ (fun _ => [0])).getElementArrayLength
            = 0) :=
  ⟨Or.inl (by norm_num),
    C4_negative_area_empty_result (fun _ => 0) ⟨[⟨0, 0⟩], ⟨1, 1⟩⟩ ⟨1, 1, 1, fun _ => 0⟩
      ⟨1, [⟨fun _ => 1, 1⟩]⟩ ⟨0, 0⟩ ⟨-1, -1⟩ (fun _ => [0]) (Or.inl (by norm_num))⟩

/-- C9: even for a zero- or negative-area region, the empty Result still
reports `num_classes` equal to the number of density maps of the layer
(not zero classes), and `element_array_length` equal to 0. -/
theorem C9_empty_result_classes (hash : Vec2 → ℚ) (pipe : Pipeline) (w : WorldData)
    (layer : LayerData) (lb ub : Vec2) (sched : ℕ → List ℕ)
    (h : ub.x ≤ lb.x ∨ ub.y ≤ lb.y) :
    (computePlacement hash pipe w layer lb ub sched).numClasses
        = layer.densitymaps.length
      ∧ (computePlacement hash pipe w layer lb ub sched).getElementArrayLength = 0 :=
  ⟨(computePlacement_empty hash pipe w layer lb ub sched h).2.2,
    (computePlacement_empty hash pipe w layer lb ub sched h).2.1⟩

/-- C9 witness: a negative-area call with a two-class layer still reports
two classes. -/
theorem C9_empty_result_classes_witness :
    ((⟨2, -2⟩ : Vec2).x ≤ (⟨1, 0⟩ : Vec2).x ∨ (⟨2, -2⟩ : Vec2).y ≤ (⟨1, 0⟩ : Vec2).y)
    ∧ ((computePlacement (fun _ => 0) ⟨[⟨0, 0⟩], ⟨1, 1⟩⟩ ⟨1, 1, 1, fun _ => 0⟩
          ⟨1, [⟨fun _ => 1, 1 / 2⟩, ⟨fun _ => 1, 1 / 2⟩]⟩ ⟨1, 0⟩ ⟨2, -2⟩
          (fun _ => [0])).numClasses
        = (LayerData.mk 1 [⟨fun _ => 1, 1 / 2⟩, ⟨fun _ => 1, 1 / 2⟩]).densitymaps.length
      ∧ (computePlacement (fun _ => 0) ⟨[⟨0, 0⟩], ⟨1, 1⟩⟩ ⟨1, 1, 1, fun _ => 0⟩
          ⟨1, [⟨fun _ => 1, 1 / 2⟩, ⟨fun _ => 1, 1 / 2⟩]⟩ ⟨1, 0⟩ ⟨2, -2⟩
          (fun _ => [0])).getElementArrayLength = 0) :=
  ⟨Or.inr (by norm_num),
    C9_empty_result_classes (fun _ => 0) ⟨[⟨0, 0⟩], ⟨1, 1⟩⟩ ⟨1, 1, 1, fun _ => 0⟩
      ⟨1, [⟨fun _ => 1, 1 / 2⟩, ⟨fun _ => 1, 1 / 2⟩]⟩ ⟨1, 0⟩ ⟨2, -2⟩ (fun _ => [0])
      (Or.inr (by norm_num))⟩

/-- C5: for any candidate array and any validity marking, IndexationKernel
writes `u32::MAX` for every invalid candidate, assigns the valid
candidates indices that are exactly a permutation of
`{0, …, valid_count - 1}` (so each slot is assigned at most once), and the
reported count equals the number of valid candidates — for every workgroup
completion order. -/
theorem C5_indexation_correct (valid : Candidate → Bool) (cands : List Candidate)
    (order : List ℕ)
    (horder : order.Perm (List.range (chunks64 cands).length)) :
    (indexation valid order cands).length = cands.length
      ∧ (∀ p ∈ cands.zip (indexation valid order cands),
          valid p.1 = false → p.2 = u32MAX)
      ∧ (((cands.zip (indexation valid order cands)).filter
          (fun p => valid p.1)).map Prod.snd).Perm (List.range (cands.countP valid))
      ∧ indexationCount valid cands = cands.countP valid :=
  ⟨indexation_length valid order cands, indexation_invalid valid order cands,
    indexation_perm valid order cands horder, indexationCount_eq valid cands⟩

/-- C5 witness: the indexation theorem at a two-candidate array (one
valid, one invalid) with the unique completion order of its single
workgroup. -/
theorem C5_indexation_correct_witness :
    (([0] : List ℕ)).Perm (List.range
      (chunks64 [(⟨0, 0, 0, 0⟩ : Candidate), ⟨0, 0, 0, u32MAX⟩]).length)
    ∧ ((indexation (fun c => c.classIndex == 0) [0]
          [(⟨0, 0, 0, 0⟩ : Candidate), ⟨0, 0, 0, u32MAX⟩]).length
        = ([(⟨0, 0, 0, 0⟩ : Candidate), ⟨0, 0, 0, u32MAX⟩]).length
      ∧ (∀ p ∈ ([(⟨0, 0, 0, 0⟩ : Candidate), ⟨0, 0, 0, u32MAX⟩]).zip
          (indexation (fun c => c.classIndex == 0) [0]
            [(⟨0, 0, 0, 0⟩ : Candidate), ⟨0, 0, 0, u32MAX⟩]),
          (fun (c : Candidate) => c.classIndex == 0) p.1 = false → p.2 = u32MAX)
      ∧ List.Perm (((([(⟨0, 0, 0, 0⟩ : Candidate), ⟨0, 0, 0, u32MAX⟩]).zip
          (indexation (fun c => c.classIndex == 0) [0]
            [(⟨0, 0, 0, 0⟩ : Candidate), ⟨0, 0, 0, u32MAX⟩])).filter
            (fun p => (fun (c : Candidate) => c.classIndex == 0) p.1)).map Prod.snd)
          (List.range (([(⟨0, 0, 0, 0⟩ : Candidate),
            ⟨0, 0, 0, u32MAX⟩]).countP (fun c => c.classIndex == 0)))
      ∧ indexationCount (fun c => c.classIndex == 0)
            [(⟨0, 0, 0, 0⟩ : Candidate), ⟨0, 0, 0, u32MAX⟩]
          = ([(⟨0, 0, 0, 0⟩ : Candidate), ⟨0, 0, 0, u32MAX⟩]).countP
            (fun c => c.classIndex == 0)) :=
  ⟨by decide,
    C5_indexation_correct (fun c => c.classIndex == 0)
      [(⟨0, 0, 0, 0⟩ : Candidate), ⟨0, 0, 0, u32MAX⟩] [0] (by decide)⟩

/-- C6: given a candidate array with unique assigned slots for the valid
entries (`u32::MAX` for invalid ones) and their count, CopyKernel writes
`output[0..count)` so that it exactly equals the subsequence of valid
candidates arranged in index order — slot `k` holds the candidate whose
index is `k` — and so that, as a multiset, it is the valid subset. -/
theorem C6_copy_kernel_correct (cands : List Candidate) (indices : List ℕ)
    (out : List Candidate) (count : ℕ)
    (hperm : ((validPairs cands indices).map Prod.snd).Perm (List.range count))
    (hcount : count ≤ out.length) :
    (scatterWrites cands indices out).take count
        = gatherSpec cands indices count defaultCandidate
      ∧ ((scatterWrites cands indices out).take count).Perm
          ((validPairs cands indices).map Prod.fst) :=
  ⟨scatter_take_eq cands indices out defaultCandidate count hperm hcount,
    scatter_take_perm cands indices out defaultCandidate count hperm hcount⟩

/-- C6 witness: the copy theorem at two valid candidates scattered in
swapped order into a two-slot output buffer. -/
theorem C6_copy_kernel_correct_witness :
    ((validPairs [(⟨0, 0, 0, 0⟩ : Candidate), ⟨1, 0, 1, 0⟩] [1, 0]).map Prod.snd).Perm
      (List.range 2)
    ∧ ((2 : ℕ) ≤ (List.replicate 2 defaultCandidate).length)
    ∧ ((scatterWrites [(⟨0, 0, 0, 0⟩ : Candidate), ⟨1, 0, 1, 0⟩] [1, 0]
          (List.replicate 2 defaultCandidate)).take 2
        = gatherSpec [(⟨0, 0, 0, 0⟩ : Candidate), ⟨1, 0, 1, 0⟩] [1, 0] 2 defaultCandidate
      ∧ ((scatterWrites [(⟨0, 0, 0, 0⟩ : Candidate), ⟨1, 0, 1, 0⟩] [1, 0]
          (List.replicate 2 defaultCandidate)).take 2).Perm
          ((validPairs [(⟨0, 0, 0, 0⟩ : Candidate), ⟨1, 0, 1, 0⟩] [1, 0]).map Prod.fst)) :=
  ⟨by decide, by decide,
    C6_copy_kernel_correct [(⟨0, 0, 0, 0⟩ : Candidate), ⟨1, 0, 1, 0⟩] [1, 0]
      (List.replicate 2 defaultCandidate) 2 (by decide) (by decide)⟩

/-- C7 (amended): for every distribution produced by the dart-throwing
generator over any candidate stream inside the tile — the claim as stated
is refuted by `C7_disk_toroidal_counterexample` — every produced position
lies in `[0, tile_bounds)`, every pair of distinct produced points whose
grid cells lie within the 3×3 toroidal cell neighborhood satisfies
`distance(p, q + (dx,dy)·bounds) ≥ footprint` for every shift in
`{-1,0,1}²`, and every point satisfies the bound against its own nonzero
toroidal images. -/
theorem C7_disk_toroidal_amended (f s : ℚ) (m n : ℕ) (stream : List Vec2)
    (hf : 0 < f) (hs : 0 < s) (hm : 0 < m) (hn : 0 < n)
    (hmx : f ≤ m * s) (hny : f ≤ n * s)
    (hstream : ∀ c ∈ stream, inTile s m n c) :
    (∀ p ∈ diskRun f s m n stream, inTile s m n p)
      ∧ (∀ p ∈ diskRun f s m n stream, ∀ q ∈ diskRun f s m n stream, p ≠ q →
          neighborCells m n s p q = true →
          ∀ d ∈ shifts9, f ^ 2 ≤ dist2 p (shiftBy q d ⟨m * s, n * s⟩))
      ∧ (∀ p ∈ diskRun f s m n stream, ∀ d ∈ shifts9, d ≠ (0, 0) →
          f ^ 2 ≤ dist2 p (shiftBy p d ⟨m * s, n * s⟩)) :=
  disk_generator_amended f s m n stream hf hs hm hn hmx hny hstream

/-- C7 witness: the amended theorem at a one-cell grid with a single
in-tile draw. -/
theorem C7_disk_toroidal_amended_witness :
    ((0 : ℚ) < 1) ∧ ((0 : ℚ) < 1) ∧ (0 < 1) ∧ (0 < 1)
    ∧ ((1 : ℚ) ≤ (1 : ℕ) * (1 : ℚ)) ∧ ((1 : ℚ) ≤ (1 : ℕ) * (1 : ℚ))
    ∧ (∀ c ∈ [(⟨0, 0⟩ : Vec2)], inTile 1 1 1 c)
    ∧ ((∀ p ∈ diskRun 1 1 1 1 [⟨0, 0⟩], inTile 1 1 1 p)
      ∧ (∀ p ∈ diskRun 1 1 1 1 [⟨0, 0⟩], ∀ q ∈ diskRun 1 1 1 1 [⟨0, 0⟩], p ≠ q →
          neighborCells 1 1 1 p q = true →
          ∀ d ∈ shifts9, (1 : ℚ) ^ 2 ≤ dist2 p (shiftBy q d ⟨(1 : ℕ) * 1, (1 : ℕ) * 1⟩))
      ∧ (∀ p ∈ diskRun 1 1 1 1 [⟨0, 0⟩], ∀ d ∈ shifts9, d ≠ (0, 0) →
          (1 : ℚ) ^ 2 ≤ dist2 p (shiftBy p d ⟨(1 : ℕ) * 1, (1 : ℕ) * 1⟩))) := by
  have hstream : ∀ c ∈ [(⟨0, 0⟩ : Vec2)], inTile 1 1 1 c := by
    intro c hc
    rw [List.mem_singleton] at hc
    rw [hc, inTile]
    norm_num
  exact ⟨by norm_num, by norm_num, by omega, by omega, by norm_num, by norm_num, hstream,
    C7_disk_toroidal_amended 1 1 1 1 [⟨0, 0⟩] (by norm_num) (by norm_num) (by omega)
      (by omega) (by norm_num) (by norm_num) hstream⟩

/-- C8: for the argument sets accepted by `GenerationKernel::setArgs`, the
number of candidates generated by a dispatch — and reported by
`calculateCandidateCount` — equals `num_work_groups.x * num_work_groups.y
* 64` (the workgroup size is 8×8), with
`num_work_groups = ceil((upper_bound - lower_bound) / stencil_bounds)`
clamped to zero when either axis of the region is non-positive. -/
theorem C8_candidate_count (w : WorldData) (lb ub sb : Vec2) (stencil : List Vec2)
    (hsx : 0 < sb.x) (hsy : 0 < sb.y) (h64 : stencil.length = 64) :
    (generationDispatch w lb sb stencil (calculateNumWorkGroups sb lb ub).1
        (calculateNumWorkGroups sb lb ub).2).length
        = calculateCandidateCount (calculateNumWorkGroups sb lb ub)
      ∧ calculateCandidateCount (calculateNumWorkGroups sb lb ub)
          = (calculateNumWorkGroups sb lb ub).1 * (calculateNumWorkGroups sb lb ub).2 * 64
      ∧ (ub.x ≤ lb.x ∨ ub.y ≤ lb.y →
          calculateCandidateCount (calculateNumWorkGroups sb lb ub) = 0) := by
  refine ⟨?_, calculateCandidateCount_mul _, ?_⟩
  · exact generation_count_link w lb sb stencil (calculateNumWorkGroups sb lb ub).1
      (calculateNumWorkGroups sb lb ub).2 h64
  · intro h
    rw [calculateCandidateCount_mul]
    rcases h with h | h
    · rw [(calculateNumWorkGroups_clamp sb lb ub hsx hsy).1 h]
      simp
    · rw [(calculateNumWorkGroups_clamp sb lb ub hsx hsy).2 h]
      simp

/-- C8 witness: the candidate-count theorem at a unit region with unit
stencil bounds and a 64-slot stencil. -/
theorem C8_candidate_count_witness :
    ((0 : ℚ) < (⟨1, 1⟩ : Vec2).x) ∧ ((0 : ℚ) < (⟨1, 1⟩ : Vec2).y)
    ∧ (List.replicate 64 (⟨0, 0⟩ : Vec2)).length = 64
    ∧ ((generationDispatch ⟨1, 1, 1, fun _ => 0⟩ ⟨0, 0⟩ ⟨1, 1⟩
          (List.replicate 64 (⟨0, 0⟩ : Vec2))
          (calculateNumWorkGroups ⟨1, 1⟩ ⟨0, 0⟩ ⟨1, 1⟩).1
          (calculateNumWorkGroups ⟨1, 1⟩ ⟨0, 0⟩ ⟨1, 1⟩).2).length
        = calculateCandidateCount (calculateNumWorkGroups ⟨1, 1⟩ ⟨0, 0⟩ ⟨1, 1⟩)
      ∧ calculateCandidateCount (calculateNumWorkGroups ⟨1, 1⟩ ⟨0, 0⟩ ⟨1, 1⟩)
          = (calculateNumWorkGroups ⟨1, 1⟩ ⟨0, 0⟩ ⟨1, 1⟩).1
            * (calculateNumWorkGroups ⟨1, 1⟩ ⟨0, 0⟩ ⟨1, 1⟩).2 * 64
      ∧ ((⟨1, 1⟩ : Vec2).x ≤ (⟨0, 0⟩ : Vec2).x ∨ (⟨1, 1⟩ : Vec2).y ≤ (⟨0, 0⟩ : Vec2).y →
          calculateCandidateCount (calculateNumWorkGroups ⟨1, 1⟩ ⟨0, 0⟩ ⟨1, 1⟩) = 0)) :=
  ⟨by norm_num, by norm_num, by decide,
    C8_candidate_count ⟨1, 1, 1, fun _ => 0⟩ ⟨0, 0⟩ ⟨1, 1⟩ ⟨1, 1⟩
      (List.replicate 64 (⟨0, 0⟩ : Vec2)) (by norm_num) (by norm_num) (by decide)⟩

/-- C10 (amended): the footprint separation of GenerationKernel holds for
every pair of generated candidates — the discarded ones included — across
any two dispatches, provided the world data, footprint, placement stencil
AND the lower bound are identical across those calls; the claim as stated
(without fixing the lower bound) is refuted by
`C10_cross_dispatch_counterexample`, since the candidate lattice is
anchored at the lower bound. -/
theorem C10_cross_dispatch_amended (w : WorldData) (stencil : List Vec2) (B : Vec2)
    (f : ℚ) (lb : Vec2) (nw₁ nw₂ : ℕ × ℕ)
    (htor : toroidalOk stencil B f) (hrange : stencilInRange stencil B)
    (hfx : f ≤ B.x) (hfy : f ≤ B.y) (hf : 0 < f) :
    ∀ c₁ ∈ generationDispatch w lb B stencil nw₁.1 nw₁.2,
      ∀ c₂ ∈ generationDispatch w lb B stencil nw₂.1 nw₂.2,
        c₁ ≠ c₂ → f ^ 2 ≤ dist2 ⟨c₁.1.posX, c₁.1.posZ⟩ ⟨c₂.1.posX, c₂.1.posZ⟩ :=
  generation_cross_dispatch_sep w stencil B f lb nw₁ nw₂ htor hrange hfx hfy hf

/-- C10 witness: the amended cross-dispatch theorem at the singleton
stencil with two dispatches of different sizes from the same lower
bound. -/
theorem C10_cross_dispatch_amended_witness :
    toroidalOk [(⟨0, 0⟩ : Vec2)] ⟨1, 1⟩ 1
    ∧ stencilInRange [(⟨0, 0⟩ : Vec2)] ⟨1, 1⟩
    ∧ ((1 : ℚ) ≤ (⟨1, 1⟩ : Vec2).x) ∧ ((1 : ℚ) ≤ (⟨1, 1⟩ : Vec2).y) ∧ ((0 : ℚ) < 1)
    ∧ (∀ c₁ ∈ generationDispatch ⟨1, 1, 1, fun _ => 0⟩ ⟨0, 0⟩ ⟨1, 1⟩ [⟨0, 0⟩]
          ((1, 1) : ℕ × ℕ).1 ((1, 1) : ℕ × ℕ).2,
        ∀ c₂ ∈ generationDispatch ⟨1, 1, 1, fun _ => 0⟩ ⟨0, 0⟩ ⟨1, 1⟩ [⟨0, 0⟩]
          ((2, 2) : ℕ × ℕ).1 ((2, 2) : ℕ × ℕ).2,
          c₁ ≠ c₂ → (1 : ℚ) ^ 2 ≤ dist2 ⟨c₁.1.posX, c₁.1.posZ⟩ ⟨c₂.1.posX, c₂.1.posZ⟩) :=
  ⟨toroidalOk_singleton, stencilInRange_singleton, by norm_num, by norm_num, by norm_num,
    C10_cross_dispatch_amended ⟨1, 1, 1, fun _ => 0⟩ [⟨0, 0⟩] ⟨1, 1⟩ 1 ⟨0, 0⟩ (1, 1) (2, 2)
      toroidalOk_singleton stencilInRange_singleton (by norm_num) (by norm_num)
      (by norm_num)⟩
